import Mathlib

/- Verification of the configuration-management tool in scripts/config.py
   (class ConfigManager) against its natural-language specification.

   Modelling conventions.
   CPython dictionaries are insertion-ordered maps; we model them as
   association lists `List (String × α)` whose keys are unique in every
   reachable state: `d[k] = v` updates the value in place when `k` is
   present and appends `(k, v)` otherwise.  AWS tags `{'Key': k, 'Value': v}`
   are modelled as pairs `(k, v)`.  Regular expressions passed to `re.match`
   are modelled by a small regex AST with Brzozowski-derivative matching;
   `re.match` anchors at the start of the string only (it succeeds when some
   prefix of the string matches), while a full match requires the entire
   string to match.  `shlex.split` in POSIX mode is modelled by an explicit
   state machine over the character list. -/

/-- Python `key in dict`. -/
def containsK (d : List (String × α)) (k : String) : Bool :=
  d.any (fun p => p.1 = k)

/-- Python `dict.get(key)`: value of the first (unique) entry with key `k`. -/
def lookupA (d : List (String × α)) (k : String) : Option α :=
  (d.find? (fun p => p.1 = k)).map (fun p => p.2)

/-- Python `dict[key] = v`: update in place if the key exists, else append. -/
def dictInsert (d : List (String × α)) (k : String) (v : α) : List (String × α) :=
  if containsK d k then d.map (fun p => if p.1 = k then (k, v) else p)
  else d ++ [(k, v)]

/-- The keys of an association list, in order. -/
def keysOf (d : List (String × α)) : List String := d.map Prod.fst

/-- Python dict comprehension `{p[0]: p[1] for p in l}` (later duplicates win). -/
def dictOfA (l : List (String × α)) : List (String × α) :=
  l.foldl (fun d p => dictInsert d p.1 p.2) []

/-- Is the first list an initial segment of the second? -/
def listLeadsWith : List Char → List Char → Bool
  | [], _ => true
  | _ :: _, [] => false
  | a :: as, b :: bs => a = b && listLeadsWith as bs

/-- Python `s.startswith(p)` (computable model of String.startsWith). -/
def pyStartswith (s p : String) : Bool := listLeadsWith p.toList s.toList

/-- config.py line 1240: a tag key is protected iff it starts with
    "atlantis:" or "Atlantis" (case-sensitive). -/
def isProtectedTagKey (k : String) : Bool :=
  pyStartswith k "atlantis:" || pyStartswith k "Atlantis"

/-- One iteration of the `for new_tag in new_tags` loop in merge_tags
    (config.py 1237-1243): an existing unprotected key is overwritten,
    a missing key is added, an existing protected key is left alone. -/
def mergeTagStep (d : List (String × String)) (t : String × String) :
    List (String × String) :=
  if containsK d t.1 && !isProtectedTagKey t.1 then dictInsert d t.1 t.2
  else if !(containsK d t.1) then dictInsert d t.1 t.2
  else d

/-- ConfigManager.merge_tags (config.py 1225-1246): convert `original_tags`
    to a dict, fold the custom-tag loop over `new_tags`, and return the
    entries (the final list comprehension returns the dict's pairs). -/
def merge_tags (original_tags new_tags : List (String × String)) :
    List (String × String) :=
  new_tags.foldl mergeTagStep (dictOfA original_tags)

/- ---------------------------------------------------------------------
   Regular expressions (for AllowedPattern) via Brzozowski derivatives.
   --------------------------------------------------------------------- -/

inductive Regex where
  | fail : Regex
  | eps : Regex
  | char (c : Char) : Regex
  | any : Regex
  | cat (a b : Regex) : Regex
  | alt (a b : Regex) : Regex
  | star (a : Regex) : Regex
deriving DecidableEq

def Regex.nullable : Regex → Bool
  | .fail => false
  | .eps => true
  | .char _ => false
  | .any => false
  | .cat a b => a.nullable && b.nullable
  | .alt a b => a.nullable || b.nullable
  | .star _ => true

def Regex.deriv : Regex → Char → Regex
  | .fail, _ => .fail
  | .eps, _ => .fail
  | .char c, x => if x = c then .eps else .fail
  | .any, _ => .eps
  | .cat a b, x => if a.nullable then .alt (.cat (a.deriv x) b) (b.deriv x)
                   else .cat (a.deriv x) b
  | .alt a b, x => .alt (a.deriv x) (b.deriv x)
  | .star a, x => .cat (a.deriv x) (.star a)

/-- Does `r` match the whole character list? -/
def matchesFullAux : Regex → List Char → Bool
  | r, [] => r.nullable
  | r, c :: cs => matchesFullAux (r.deriv c) cs

/-- Full-match semantics (what `re.fullmatch` would check and what
    CloudFormation's AllowedPattern requires): the entire value matches. -/
def reFullmatch (r : Regex) (s : String) : Bool := matchesFullAux r s.toList

/-- Does `r` match some prefix of the character list? -/
def matchesAtStartAux : Regex → List Char → Bool
  | r, [] => r.nullable
  | r, c :: cs => r.nullable || matchesAtStartAux (r.deriv c) cs

/-- Python `re.match(r, s)` truthiness: the pattern is anchored at the start
    of the string only; it succeeds when `r` matches some prefix of `s`. -/
def reMatch (r : Regex) (s : String) : Bool := matchesAtStartAux r s.toList

/- ---------------------------------------------------------------------
   ConfigManager.validate_parameter (config.py 1052-1135)
   --------------------------------------------------------------------- -/

/-- Python `sep.join(xs)`. -/
def joinSep (sep : String) : List String → String
  | [] => ""
  | [x] => x
  | x :: xs => x ++ sep ++ joinSep sep xs

/-- Characters removed by Python `str.strip()` (ASCII whitespace). -/
def pyStripWs (c : Char) : Bool :=
  c = ' ' || c.toNat = 9 || c.toNat = 10 || c.toNat = 13 || c.toNat = 11 ||
  c.toNat = 12

def pyStripChars (l : List Char) : List Char :=
  ((l.dropWhile pyStripWs).reverse.dropWhile pyStripWs).reverse

/-- Python `str.strip()`. -/
def pyStrip (s : String) : String := String.mk (pyStripChars s.toList)

def digitsVal (l : List Char) : Nat :=
  l.foldl (fun n c => 10 * n + (c.toNat - 48)) 0

/-- Exponent part of a float literal (after the `e`/`E`). -/
def pyFloatExp (l : List Char) : Option Int :=
  let (es, l1) : Int × List Char :=
    match l with
    | '+' :: t => (1, t)
    | '-' :: t => (-1, t)
    | t => (1, t)
  if l1 ≠ [] && l1.all Char.isDigit then some (es * (digitsVal l1 : Int))
  else none

/-- Models CPython `float(s)` on finite decimal literals: optional
    surrounding whitespace, optional sign, integer and/or fraction digits,
    optional exponent.  The value is modelled as an exact rational
    (IEEE-754 rounding, `inf`/`nan` and digit underscores are not modelled;
    no claim depends on this branch). -/
def pyFloat? (s : String) : Option Rat :=
  let l := pyStripChars s.toList
  let (sign, l1) : Rat × List Char :=
    match l with
    | '+' :: t => (1, t)
    | '-' :: t => (-1, t)
    | t => (1, t)
  let ip := l1.takeWhile Char.isDigit
  let l2 := l1.dropWhile Char.isDigit
  match l2 with
  | [] => if ip = [] then none else some (sign * (digitsVal ip : Rat))
  | '.' :: t =>
    let fp := t.takeWhile Char.isDigit
    let l3 := t.dropWhile Char.isDigit
    if ip = [] && fp = [] then none
    else
      let mant : Rat :=
        (digitsVal ip : Rat) + (digitsVal fp : Rat) / ((10 : Rat) ^ fp.length)
      match l3 with
      | [] => some (sign * mant)
      | e :: t2 =>
        if e = 'e' || e = 'E' then
          (pyFloatExp t2).map (fun ex => sign * mant * (10 : Rat) ^ ex)
        else none
  | e :: t2 =>
    if (e = 'e' || e = 'E') && ip ≠ [] then
      (pyFloatExp t2).map (fun ex => sign * (digitsVal ip : Rat) * (10 : Rat) ^ ex)
    else none

/-- An AllowedPattern entry: the raw pattern text from the template together
    with its meaning as a regex (the semantics `re` applies to it). -/
structure PatternT where
  raw : String
  re : Regex

/-- A CloudFormation parameter definition (the keys validate_parameter reads
    from the `param_def` dict).  `Default` records only presence, as the
    source checks `"Default" in param_def`; `ptype` is the 'Type' key. -/
structure ParamDef where
  Default : Option String
  ptype : Option String
  AllowedValues : List String
  AllowedPattern : Option PatternT
  MinLength : Option Int
  MaxLength : Option Int
  MinValue : Option Rat
  MaxValue : Option Rat

/-- The `{"reason": ..., "valid": ...}` dict returned by validate_parameter. -/
structure VResult where
  reason : String
  valid : Bool
deriving DecidableEq

def allowedValuesReason (vs : List String) : String :=
  "Value must be one of: " ++ joinSep ", " vs

/-- config.py 1074-1076: `allowed_pattern and not re.match(allowed_pattern,
    value)`; a `None` or empty pattern is falsy and skips the check. -/
def patternRejects (p : Option PatternT) (value : String) : Bool :=
  match p with
  | none => false
  | some pt => pt.raw ≠ "" && !(reMatch pt.re value)

def patternRaw (p : Option PatternT) : String :=
  match p with
  | none => ""
  | some pt => pt.raw

/-- String-family length checks (config.py 1079-1089). -/
def stringChecks (value : String) (param_def : ParamDef) : VResult :=
  let min_length : Int := param_def.MinLength.getD 0
  if (value.length : Int) < min_length then
    ⟨"String length must be at least " ++ toString min_length, false⟩
  else
    match param_def.MaxLength with
    | some max_length =>
      if (value.length : Int) > max_length then
        ⟨"String length must be no more than " ++ toString max_length, false⟩
      else ⟨"Valid", true⟩
    | none => ⟨"Valid", true⟩

/-- Number-family checks (config.py 1091-1103); absent bounds behave like
    `float('-inf')`/`float('inf')`. -/
def numberChecks (value : String) (param_def : ParamDef) : VResult :=
  match pyFloat? value with
  | none => ⟨"Value must be a number", false⟩
  | some num_value =>
    let bad_min : Bool := match param_def.MinValue with
      | some m => decide (num_value < m)
      | none => false
    if bad_min then
      ⟨"Number must be at least " ++ toString (param_def.MinValue.getD 0), false⟩
    else
      let bad_max : Bool := match param_def.MaxValue with
        | some m => decide (num_value > m)
        | none => false
      if bad_max then
        ⟨"Number must be no more than " ++ toString (param_def.MaxValue.getD 0), false⟩
      else ⟨"Valid", true⟩

/-- ConfigManager.validate_parameter (config.py 1052-1135): empty value with
    a Default is accepted first; then AllowedValues, then AllowedPattern,
    then the type-specific checks; the final fall-through is valid. -/
def validate_parameter (value : String) (param_def : ParamDef) : VResult :=
  if value = "" && param_def.Default.isSome then ⟨"Valid", true⟩
  else
    let param_type := param_def.ptype.getD "String"
    if param_def.AllowedValues ≠ [] && !(param_def.AllowedValues.contains value) then
      ⟨allowedValuesReason param_def.AllowedValues, false⟩
    else if patternRejects param_def.AllowedPattern value then
      ⟨"Value must match pattern: " ++ patternRaw param_def.AllowedPattern, false⟩
    else if param_type = "String" || param_type = "AWS::SSM::Parameter::Value<String>" then
      stringChecks value param_def
    else if param_type = "Number" || param_type = "AWS::SSM::Parameter::Value<Number>" then
      numberChecks value param_def
    else if param_type = "CommaDelimitedList" then
      if !(((value.splitOn ",").map pyStrip).all (fun i => i ≠ "")) then
        ⟨"CommaDelimitedList cannot contain empty items", false⟩
      else ⟨"Valid", true⟩
    else if param_type = "List<Number>" then
      if !(((value.splitOn ",").map pyStrip).all (fun i => (pyFloat? i).isSome)) then
        ⟨"All items must be valid numbers", false⟩
      else ⟨"Valid", true⟩
    else if param_type = "AWS::EC2::KeyPair::KeyName" then
      if value = "" then ⟨"KeyPair name cannot be empty", false⟩
      else ⟨"Valid", true⟩
    else if param_type = "AWS::EC2::VPC::Id" then
      if !(pyStartswith value "vpc-") then ⟨"VPC ID must start with 'vpc-'", false⟩
      else ⟨"Valid", true⟩
    else if param_type = "AWS::EC2::Subnet::Id" then
      if !(pyStartswith value "subnet-") then ⟨"Subnet ID must start with 'subnet-'", false⟩
      else ⟨"Valid", true⟩
    else if param_type = "AWS::EC2::SecurityGroup::Id" then
      if !(pyStartswith value "sg-") then ⟨"Security Group ID must start with 'sg-'", false⟩
      else ⟨"Valid", true⟩
    else ⟨"Valid", true⟩

/- ---------------------------------------------------------------------
   ConfigManager.compare_configurations (config.py 1392-1487)
   --------------------------------------------------------------------- -/

/-- A Python value stored in the atlantis deploy-parameter dict: the values
    present there are strings and the boolean `confirm_changeset`. -/
inductive PyVal where
  | pstr (s : String) : PyVal
  | pbool (b : Bool) : PyVal
deriving DecidableEq

/-- The `['deploy']['parameters']` payload of one deployment section, as
    compare_configurations reads it: the parameter_overrides dict and the
    tags list (AWS-format pairs). -/
structure StageParams where
  parameter_overrides : List (String × String)
  tags : List (String × String)
deriving DecidableEq

/-- The samconfig-shaped structure compare_configurations walks:
    `atlantis.deploy.parameters` and the per-stage deployment sections. -/
structure SamConfig where
  atlantis_params : List (String × PyVal)
  deployments : List (String × StageParams)
deriving DecidableEq

/-- `config.get('deployments', {}).get(stage_id, {}).get('deploy', {})
    .get('parameters', {})` with empty fall-backs. -/
def getStageParams (c : SamConfig) (stage_id : String) : StageParams :=
  (lookupA c.deployments stage_id).getD ⟨[], []⟩

/-- config.py 1426-1429: copy the non-essential keys confirm_changeset and
    s3_bucket from the local atlantis parameters into the stack's before
    comparing, so they are never reported as differences. -/
def copyNonEssential (local_atlantis stack_atlantis : List (String × PyVal)) :
    List (String × PyVal) :=
  let sa1 := match lookupA local_atlantis "confirm_changeset" with
    | some v => dictInsert stack_atlantis "confirm_changeset" v
    | none => stack_atlantis
  match lookupA local_atlantis "s3_bucket" with
  | some v => dictInsert sa1 "s3_bucket" v
  | none => sa1

/-- `sorted(set(a) | set(b))` as the list of keys iterated over; sorting and
    de-duplication do not affect whether any key mismatches. -/
def unionKeys (a b : List String) : List String := (a ++ b).dedup

/-- One comparison domain of compare_configurations: fold the per-key loop
    over the union of keys, setting the running `differences` flag when the
    raw values (absent = Python None) are unequal. -/
def domainDiff [DecidableEq α] (l r : List (String × α)) (acc : Bool) : Bool :=
  (unionKeys (keysOf l) (keysOf r)).foldl
    (fun differences k => if lookupA l k ≠ lookupA r k then true else differences)
    acc

/-- ConfigManager.compare_configurations (config.py 1392-1487): returns the
    `differences` flag accumulated over the three domains (parameter
    overrides, atlantis deploy parameters after the non-essential copy, and
    tags converted to dicts). -/
def compare_configurations (stage_id : String)
    (local_config stack_config : SamConfig) : Bool :=
  let local_params := getStageParams local_config stage_id
  let stack_params := getStageParams stack_config stage_id
  let local_atlantis := local_config.atlantis_params
  let stack_atlantis := copyNonEssential local_atlantis stack_config.atlantis_params
  let d1 := domainDiff local_params.parameter_overrides
    stack_params.parameter_overrides false
  let d2 := domainDiff local_atlantis stack_atlantis d1
  domainDiff (dictOfA local_params.tags) (dictOfA stack_params.tags) d2

/-- `format_value` (config.py 1397-1399) applied to an optional string:
    `str(value) if value is not None else 'None'`. -/
def format_value_s (v : Option String) : String :=
  match v with
  | none => "None"
  | some s => s

/-- `format_value` applied to an optional atlantis value (`str(True)` is
    "True"). -/
def format_value_p (v : Option PyVal) : String :=
  match v with
  | none => "None"
  | some (.pstr s) => s
  | some (.pbool true) => "True"
  | some (.pbool false) => "False"

/-- Modelled from the spec's words (§4.4, claim C4): per-key comparison by
    string equality after normalizing absent values to the sentinel "None",
    over the same three domains and with the same non-essential-key copy.
    Used only to compare against `compare_configurations`. -/
def specHasDifferences (stage_id : String)
    (local_config stack_config : SamConfig) : Bool :=
  let local_params := getStageParams local_config stage_id
  let stack_params := getStageParams stack_config stage_id
  let local_atlantis := local_config.atlantis_params
  let stack_atlantis := copyNonEssential local_atlantis stack_config.atlantis_params
  let lt := dictOfA local_params.tags
  let st := dictOfA stack_params.tags
  (unionKeys (keysOf local_params.parameter_overrides)
      (keysOf stack_params.parameter_overrides)).any
    (fun k => format_value_s (lookupA local_params.parameter_overrides k) ≠
              format_value_s (lookupA stack_params.parameter_overrides k)) ||
  (unionKeys (keysOf local_atlantis) (keysOf stack_atlantis)).any
    (fun k => format_value_p (lookupA local_atlantis k) ≠
              format_value_p (lookupA stack_atlantis k)) ||
  (unionKeys (keysOf lt) (keysOf st)).any
    (fun k => format_value_s (lookupA lt k) ≠ format_value_s (lookupA st k))

/- ---------------------------------------------------------------------
   deep_update / load_defaults (config.py 540-553, 559-606)
   --------------------------------------------------------------------- -/

/-- A parsed JSON value as it occurs in a defaults fragment: scalars
    (modelled by their string rendering), objects, and tag arrays (the only
    array shape the tool merges: AWS-format `{"Key":…, "Value":…}` items,
    modelled as pairs). -/
inductive JVal where
  | str (s : String) : JVal
  | dict (d : List (String × JVal)) : JVal
  | list (tags : List (String × String)) : JVal

mutual

/-- The per-key body of deep_update's loop: if both sides are dicts, merge
    recursively (in the source the nested dict is mutated in place, which
    leaves its position unchanged); if both are lists, replace with
    merge_tags; otherwise `original[key] = value`. -/
def deepUpdateVal : Option JVal → JVal → JVal
  | some (JVal.dict od), JVal.dict ud => JVal.dict (deep_update od ud)
  | some (JVal.list ol), JVal.list ul => JVal.list (merge_tags ol ul)
  | _, v => v

/-- ConfigManager.deep_update (config.py 540-553): fold the update's entries
    into `original`.  The source mutates `original` in place and returns it;
    this function computes the value `original` holds after the call (which
    is also the returned object). -/
def deep_update : List (String × JVal) → List (String × JVal) → List (String × JVal)
  | original, [] => original
  | original, (key, value) :: rest =>
      deep_update (dictInsert original key (deepUpdateVal (lookupA original key) value)) rest

end

/-- ConfigManager.load_defaults (config.py 559-606): the fold over the
    candidate config files.  Each element models the outcome of reading and
    parsing one present file: `.ok fragment` on success, `.error e` when
    `json.load` raises (the except branch logs and continues with the
    accumulator unchanged). -/
def load_defaults (layers : List (Except String (List (String × JVal)))) :
    List (String × JVal) :=
  layers.foldl
    (fun defaults layer =>
      match layer with
      | .ok new_config => deep_update defaults new_config
      | .error _ => defaults)
    []

/-- The spec's `resolve(layers)` (§4.1): apply the layers in order to an
    initially empty accumulator; implemented by load_defaults on
    successfully parsed fragments. -/
def resolve (layers : List (List (String × JVal))) : List (String × JVal) :=
  load_defaults (layers.map Except.ok)

/-- No duplicate among a list of keys. -/
def nodupB : List String → Bool
  | [] => true
  | k :: ks => !(ks.contains k) && nodupB ks

mutual

/-- Well-formedness of a JSON value for the idempotence property: objects
    have unique keys (guaranteed for parsed JSON: Python dicts cannot hold
    duplicate keys) and tag arrays have pairwise-distinct tag keys (NOT
    guaranteed by JSON: this is the condition the C5 counterexample
    violates). -/
def wfVal : JVal → Bool
  | .str _ => true
  | .list ts => nodupB (ts.map Prod.fst)
  | .dict d => nodupB (keysOf d) && wfEntries d

def wfEntries : List (String × JVal) → Bool
  | [] => true
  | (_, v) :: rest => wfVal v && wfEntries rest

end

/-- Well-formedness of a fragment (a top-level JSON object body). -/
def wfFrag (d : List (String × JVal)) : Bool := nodupB (keysOf d) && wfEntries d

/- ---------------------------------------------------------------------
   shlex.split (POSIX mode, whitespace_split=True) and the string
   parse / stringify functions (config.py 265-380)
   --------------------------------------------------------------------- -/

/-- The double-quote character. -/
def qD : Char := Char.ofNat 34

/-- The single-quote character. -/
def qS : Char := Char.ofNat 39

/-- The backslash character. -/
def bsl : Char := Char.ofNat 92

/-- `shlex.whitespace`: space, tab, CR, LF. -/
def shlexWs (c : Char) : Bool :=
  c = ' ' || c.toNat = 9 || c.toNat = 13 || c.toNat = 10

/-- Lexer state: outside quotes, inside single quotes, inside double
    quotes.  The current token accumulator travels separately (`none` when
    between tokens). -/
inductive SMode where
  | normal : SMode
  | inS : SMode
  | inD : SMode

/-- The POSIX shlex state machine with whitespace_split=True and no
    comment characters, as configured by both parse_parameter_overrides
    (shlex.split) and parse_tags.  Returns `none` when the lexer raises
    (unmatched quote: "No closing quotation"; trailing escape: "No escaped
    character").  Outside quotes a backslash escapes the next character;
    inside double quotes it escapes only the double quote and itself;
    inside single quotes everything is literal. -/
def shlexAux : SMode → Option (List Char) → List Char → Option (List String)
  | .normal, acc, [] =>
    (match acc with
     | none => some []
     | some t => some [String.mk t])
  | .normal, acc, c :: rest =>
    if shlexWs c then
      match acc with
      | none => shlexAux .normal none rest
      | some t => (shlexAux .normal none rest).map (fun ts => String.mk t :: ts)
    else if c = qS then shlexAux .inS (some (acc.getD [])) rest
    else if c = qD then shlexAux .inD (some (acc.getD [])) rest
    else if c = bsl then
      match rest with
      | [] => none
      | c2 :: rest2 => shlexAux .normal (some (acc.getD [] ++ [c2])) rest2
    else shlexAux .normal (some (acc.getD [] ++ [c])) rest
  | .inS, _, [] => none
  | .inS, acc, c :: rest =>
    if c = qS then shlexAux .normal acc rest
    else shlexAux .inS (some (acc.getD [] ++ [c])) rest
  | .inD, _, [] => none
  | .inD, acc, c :: rest =>
    if c = qD then shlexAux .normal acc rest
    else if c = bsl then
      match rest with
      | [] => none
      | c2 :: rest2 =>
        if c2 = qD || c2 = bsl then shlexAux .inD (some (acc.getD [] ++ [c2])) rest2
        else shlexAux .inD (some (acc.getD [] ++ [bsl, c2])) rest2
    else shlexAux .inD (some (acc.getD [] ++ [c])) rest

/-- `shlex.split(s)` (and the identically configured lexer of parse_tags):
    `none` models the raised exception. -/
def shlexSplit (s : String) : Option (List String) :=
  shlexAux .normal none s.toList

/-- Python `part.split('=', 1)` on a part containing '=': the text before
    the first '=' and everything after it. -/
def splitFirstEqChars : List Char → List Char × List Char
  | [] => ([], [])
  | c :: cs =>
    if c = '=' then ([], cs)
    else
      let r := splitFirstEqChars cs
      (c :: r.1, r.2)

def splitFirstEq (s : String) : String × String :=
  let r := splitFirstEqChars s.toList
  (String.mk r.1, String.mk r.2)

/-- Does the string contain '='? (Python `'=' in part`). -/
def containsEq (s : String) : Bool := s.toList.contains '='

/-- ConfigManager.parse_parameter_overrides (config.py 265-302): empty
    input gives {}; a shlex failure is caught, logged, and the (still
    empty) dict is returned; parts without '=' are skipped with a warning;
    the rest are split on the first '=' and stripped. -/
def parse_parameter_overrides (parameter_string : String) :
    List (String × String) :=
  if parameter_string = "" then []
  else
    match shlexSplit parameter_string with
    | none => []
    | some parts =>
      parts.foldl
        (fun parameters part =>
          if containsEq part then
            let kv := splitFirstEq part
            dictInsert parameters (pyStrip kv.1) (pyStrip kv.2)
          else parameters)
        []

/-- ConfigManager.stringify_parameter_overrides (config.py 373-380):
    `" ".join(f'"{key}"="{value}"')`. -/
def quoteKV (key value : String) : String :=
  String.mk (qD :: key.toList ++ qD :: '=' :: qD :: value.toList ++ [qD])

def stringify_parameter_overrides (parameter_overrides_as_dict : List (String × String)) :
    String :=
  joinSep " " (parameter_overrides_as_dict.map (fun p => quoteKV p.1 p.2))

/-- Python `str.strip('"\'')`: remove leading and trailing quote characters. -/
def quoteChar (c : Char) : Bool := c = qD || c = qS

def stripQuotes (s : String) : String :=
  String.mk (((s.toList.dropWhile quoteChar).reverse.dropWhile quoteChar).reverse)

/-- The token loop of parse_tags (config.py 340-364): empty tokens are
    skipped; a token without '=' raises ValueError (re-raised as "Error
    parsing tags: …"); key and value are stripped of whitespace and quotes;
    an empty key or value raises; otherwise the pair is appended. -/
def parseTagTokens : List String → Except String (List (String × String))
  | [] => .ok []
  | t :: rest =>
    if t = "" then parseTagTokens rest
    else if containsEq t then
      let kv := splitFirstEq t
      let key := stripQuotes (pyStrip kv.1)
      let value := stripQuotes (pyStrip kv.2)
      if key = "" || value = "" then
        .error ("Error parsing tags: Empty key or value not allowed: " ++ t)
      else (parseTagTokens rest).map (fun tags => (key, value) :: tags)
    else
      .error ("Error parsing tags: Invalid tag format. Each tag must be in 'key=value' format: " ++ t)

/-- ConfigManager.parse_tags (config.py 304-371): empty input gives [];
    otherwise the input is lexed (a lexer failure raises "Error parsing
    quoted strings: …") and the token loop runs.  The `Except.error`
    results model the ValueError the source raises to its caller. -/
def parse_tags (tag_string : String) : Except String (List (String × String)) :=
  if tag_string = "" then .ok []
  else
    match shlexSplit tag_string with
    | none => .error "Error parsing quoted strings: No closing quotation"
    | some tokens => parseTagTokens tokens

/- ---------------------------------------------------------------------
   save_config stage ordering (config.py 1285-1288)
   --------------------------------------------------------------------- -/

/-- Python `x[0]` on a stage identifier: its first character (the source
    raises IndexError on an empty stage id, so the model is only quoted
    for nonempty stages). -/
def stageFirstChar (s : String) : Char := s.toList.headD 'A'

/-- The sort key `(x[0] != 'd', x[0] != 't', x[0] != 'b', x[0] != 's',
    x[0] != 'p')` from save_config. -/
def stageSortKey (s : String) : Bool × Bool × Bool × Bool × Bool :=
  let c := stageFirstChar s
  (!(c = 'd'), !(c = 't'), !(c = 'b'), !(c = 's'), !(c = 'p'))

/-- Python `<` on booleans (False < True). -/
def boolLtB (a b : Bool) : Bool := !a && b

/-- Python lexicographic `<=` on the 5-tuples of booleans used as sort keys. -/
def tupleLeB : Bool × Bool × Bool × Bool × Bool → Bool × Bool × Bool × Bool × Bool → Bool
  | (a1, a2, a3, a4, a5), (b1, b2, b3, b4, b5) =>
    boolLtB a1 b1 || (a1 = b1 &&
      (boolLtB a2 b2 || (a2 = b2 &&
        (boolLtB a3 b3 || (a3 = b3 &&
          (boolLtB a4 b4 || (a4 = b4 &&
            (boolLtB a5 b5 || (a5 = b5)))))))))

/-- The total preorder `sorted` uses on stage identifiers. -/
def stageLe (a b : String) : Prop := tupleLeB (stageSortKey a) (stageSortKey b) = true

instance : DecidableRel stageLe := fun a b => by
  unfold stageLe
  infer_instance

instance : IsTotal String stageLe :=
  ⟨fun a b =>
    (by decide : ∀ x y : Bool × Bool × Bool × Bool × Bool,
        tupleLeB x y = true ∨ tupleLeB y x = true)
      (stageSortKey a) (stageSortKey b)⟩

instance : IsTrans String stageLe :=
  ⟨fun a b c h1 h2 =>
    (by decide : ∀ x y z : Bool × Bool × Bool × Bool × Bool,
        tupleLeB x y = true → tupleLeB y z = true → tupleLeB x z = true)
      (stageSortKey a) (stageSortKey b) (stageSortKey c) h1 h2⟩

/-- `sorted(deployments, key=…)` (config.py 1287): Python's sorted is a
    stable sort under the key's total preorder, modelled by insertion
    sort. -/
def sortedStages (stages : List String) : List String :=
  List.insertionSort stageLe stages

/-- The priority rank the spec describes: d, t, b, s, p, then the rest. -/
def stageRank (s : String) : Nat :=
  let c := stageFirstChar s
  if c = 'd' then 0
  else if c = 't' then 1
  else if c = 'b' then 2
  else if c = 's' then 3
  else if c = 'p' then 4
  else 5

/- ---------------------------------------------------------------------
   ConfigManager.generate_stack_name (config.py 145-181)
   --------------------------------------------------------------------- -/

/-- The ConfigManager instance attributes generate_stack_name reads.
    `pfx` is the source's `self.prefix` attribute (renamed: the source's
    attribute name is a reserved word here); a `None` project_id is
    modelled as "" (both are falsy and behave identically in the
    function). -/
structure ConfigManagerState where
  pfx : String
  project_id : String
  stage_id : String
  infra_type : String

/-- ConfigManager.generate_stack_name (config.py 145-181): falsy (empty)
    arguments fall back to the instance attributes; the name is assembled
    by appending "{segment}-" pieces and finally the infra type. -/
def generate_stack_name (self : ConfigManagerState)
    (pfx project_id stage_id : String) : String :=
  let pfx := if pfx = "" then self.pfx else pfx
  let project_id := if project_id = "" then self.project_id else project_id
  let stage_id := if stage_id = "" then self.stage_id else stage_id
  let stack_name := pfx ++ "-"
  let stack_name :=
    if project_id ≠ "" then stack_name ++ project_id ++ "-" else stack_name
  let stack_name :=
    if stage_id ≠ "" && stage_id ≠ "default" then stack_name ++ stage_id ++ "-"
    else stack_name
  stack_name ++ self.infra_type

/-- Modelled from claim C10's wording: the string
    "{prefix}-{project_id}-{stage_id}-{infra_type}" in which the
    project_id segment is omitted when project_id is empty and the
    stage_id segment is omitted when stage_id is empty or 'default',
    with empty arguments falling back to the instance's stored values. -/
def claimStackName (self : ConfigManagerState)
    (pfx project_id stage_id : String) : String :=
  let p := if pfx = "" then self.pfx else pfx
  let pr := if project_id = "" then self.project_id else project_id
  let sg := if stage_id = "" then self.stage_id else stage_id
  p ++ "-" ++ (if pr = "" then "" else pr ++ "-") ++
    (if sg = "" || sg = "default" then "" else sg ++ "-") ++ self.infra_type

/-- Priority rank read off a sort-key tuple. -/
def rankOfTuple : Bool × Bool × Bool × Bool × Bool → Nat
  | (false, _, _, _, _) => 0
  | (true, false, _, _, _) => 1
  | (true, true, false, _, _) => 2
  | (true, true, true, false, _) => 3
  | (true, true, true, true, false) => 4
  | (true, true, true, true, true) => 5

/-- Conditions on a parameter-override key under which the textual encoding
    round-trips (the amendment to claim C7): no double quote, no backslash,
    no '=' in the key, and the key is unchanged by `str.strip()` (no
    leading or trailing whitespace). -/
def cleanOverrideKey (k : String) : Bool :=
  k.toList.all (fun c => !(c = qD || c = bsl || c = '=')) && (pyStrip k = k)

/-- Conditions on a parameter-override value under which the textual
    encoding round-trips: no double quote, no backslash, and unchanged by
    `str.strip()`. -/
def cleanOverrideValue (v : String) : Bool :=
  v.toList.all (fun c => !(c = qD || c = bsl)) && (pyStrip v = v)

/- =====================================================================
   Lemmas: association lists
   ===================================================================== -/

theorem containsK_iff (d : List (String × α)) (k : String) :
    containsK d k = true ↔ k ∈ keysOf d := by
  simp [containsK, keysOf, List.any_eq_true, List.mem_map]

theorem containsK_false_iff (d : List (String × α)) (k : String) :
    containsK d k = false ↔ k ∉ keysOf d := by
  rw [← Bool.not_eq_true, not_iff_not]
  exact containsK_iff d k

theorem lookupA_eq_none (d : List (String × α)) (k : String)
    (h : k ∉ keysOf d) : lookupA d k = none := by
  have hf : d.find? (fun p => p.1 = k) = none := by
    apply List.find?_eq_none.2
    intro p hp
    simp only [decide_eq_true_eq]
    intro he
    exact h (by rw [← he]; exact List.mem_map_of_mem Prod.fst hp)
  simp [lookupA, hf]

theorem lookupA_ne_none_mem (d : List (String × α)) (k : String)
    (h : lookupA d k ≠ none) : k ∈ keysOf d := by
  by_contra hk
  exact h (lookupA_eq_none d k hk)

theorem lookupA_of_mem_nodup (d : List (String × α)) (k : String) (v : α)
    (hnd : (keysOf d).Nodup) (hm : (k, v) ∈ d) : lookupA d k = some v := by
  induction d with
  | nil => cases hm
  | cons p rest ih =>
    have hnd' : p.1 ∉ List.map Prod.fst rest ∧ (List.map Prod.fst rest).Nodup := by
      simpa [keysOf] using List.nodup_cons.1 hnd
    rcases List.mem_cons.1 hm with he | hm'
    · subst he
      simp [lookupA, List.find?]
    · have hne : p.1 ≠ k := by
        intro he
        apply hnd'.1
        rw [he]
        exact List.mem_map_of_mem Prod.fst hm'
      have hrec := ih (by simpa [keysOf] using hnd'.2) hm'
      simpa [lookupA, List.find?_cons, hne] using hrec

theorem lookupA_cons_ne (p : String × α) (d : List (String × α)) (k : String)
    (hne : p.1 ≠ k) : lookupA (p :: d) k = lookupA d k := by
  simp [lookupA, List.find?_cons, hne]

theorem lookupA_cons_head (p : String × α) (d : List (String × α)) :
    lookupA (p :: d) p.1 = some p.2 := by
  simp [lookupA, List.find?_cons]

theorem keysOf_map_repl (d : List (String × α)) (k : String) (v : α) :
    keysOf (d.map (fun p => if p.1 = k then (k, v) else p)) = keysOf d := by
  induction d with
  | nil => rfl
  | cons p rest ih =>
    by_cases hp : p.1 = k
    · simp only [keysOf, List.map_cons, hp, if_true] at ih ⊢
      rw [ih]
    · simp only [keysOf, List.map_cons, hp, if_false] at ih ⊢
      rw [ih]

theorem lookupA_map_repl_mem (d : List (String × α)) (k : String) (v : α)
    (hm : k ∈ keysOf d) :
    lookupA (d.map (fun p => if p.1 = k then (k, v) else p)) k = some v := by
  induction d with
  | nil => simp [keysOf] at hm
  | cons p rest ih =>
    by_cases hp : p.1 = k
    · simp only [List.map_cons, hp, if_true]
      exact lookupA_cons_head (k, v) _
    · have hm' : k ∈ keysOf rest := by
        rcases (by simpa [keysOf] using hm : k = p.1 ∨ k ∈ keysOf rest) with h | h
        · exact absurd h.symm hp
        · exact h
      simp only [List.map_cons, hp, if_false]
      rw [lookupA_cons_ne p _ k hp]
      exact ih hm'

theorem lookupA_map_repl_ne (d : List (String × α)) (k k2 : String) (v : α)
    (hne : k2 ≠ k) :
    lookupA (d.map (fun p => if p.1 = k then (k, v) else p)) k2 = lookupA d k2 := by
  induction d with
  | nil => rfl
  | cons p rest ih =>
    by_cases hp : p.1 = k
    · simp only [List.map_cons, hp, if_true]
      rw [lookupA_cons_ne (k, v) _ k2 (fun h => hne h.symm),
        lookupA_cons_ne p _ k2 (fun h => hne (hp ▸ h).symm)]
      exact ih
    · simp only [List.map_cons, hp, if_false]
      by_cases hp2 : p.1 = k2
      · rw [← hp2]
        rw [lookupA_cons_head, lookupA_cons_head]
      · rw [lookupA_cons_ne p _ k2 hp2, lookupA_cons_ne p _ k2 hp2]
        exact ih

theorem lookupA_append_single_self (d : List (String × α)) (k : String) (v : α)
    (hm : k ∉ keysOf d) : lookupA (d ++ [(k, v)]) k = some v := by
  induction d with
  | nil => exact lookupA_cons_head (k, v) []
  | cons p rest ih =>
    have hp : p.1 ≠ k := fun he => hm (by simp [keysOf, he])
    have hm' : k ∉ keysOf rest := fun h => hm (by simp [keysOf]; right; simpa [keysOf] using h)
    rw [List.cons_append, lookupA_cons_ne p _ k hp]
    exact ih hm'

theorem lookupA_append_single_ne (d : List (String × α)) (k k2 : String) (v : α)
    (hne : k2 ≠ k) : lookupA (d ++ [(k, v)]) k2 = lookupA d k2 := by
  induction d with
  | nil => simpa using lookupA_cons_ne (k, v) [] k2 (fun h => hne h.symm)
  | cons p rest ih =>
    by_cases hp2 : p.1 = k2
    · rw [← hp2, List.cons_append, lookupA_cons_head, lookupA_cons_head]
    · rw [List.cons_append, lookupA_cons_ne p _ k2 hp2, lookupA_cons_ne p _ k2 hp2]
      exact ih

theorem keysOf_dictInsert_mem (d : List (String × α)) (k : String) (v : α)
    (h : containsK d k = true) : keysOf (dictInsert d k v) = keysOf d := by
  simp only [dictInsert, h, if_true]
  exact keysOf_map_repl d k v

theorem keysOf_dictInsert_not_mem (d : List (String × α)) (k : String) (v : α)
    (h : containsK d k = false) : keysOf (dictInsert d k v) = keysOf d ++ [k] := by
  simp [dictInsert, h, keysOf]

theorem lookupA_dictInsert_self (d : List (String × α)) (k : String) (v : α) :
    lookupA (dictInsert d k v) k = some v := by
  by_cases hc : containsK d k = true
  · simp only [dictInsert, hc, if_true]
    exact lookupA_map_repl_mem d k v ((containsK_iff d k).1 hc)
  · have hf : containsK d k = false := by simpa using hc
    simp only [dictInsert, hf, Bool.false_eq_true, if_false]
    exact lookupA_append_single_self d k v ((containsK_false_iff d k).1 hf)

theorem lookupA_dictInsert_ne (d : List (String × α)) (k k2 : String) (v : α)
    (hne : k2 ≠ k) : lookupA (dictInsert d k v) k2 = lookupA d k2 := by
  by_cases hc : containsK d k = true
  · simp only [dictInsert, hc, if_true]
    exact lookupA_map_repl_ne d k k2 v hne
  · have hf : containsK d k = false := by simpa using hc
    simp only [dictInsert, hf, Bool.false_eq_true, if_false]
    exact lookupA_append_single_ne d k k2 v hne

theorem nodup_keys_dictInsert (d : List (String × α)) (k : String) (v : α)
    (h : (keysOf d).Nodup) : (keysOf (dictInsert d k v)).Nodup := by
  by_cases hc : containsK d k = true
  · rw [keysOf_dictInsert_mem d k v hc]
    exact h
  · have hf : containsK d k = false := by simpa using hc
    rw [keysOf_dictInsert_not_mem d k v hf]
    have hk : k ∉ keysOf d := (containsK_false_iff d k).1 hf
    rw [List.nodup_append]
    exact ⟨h, List.nodup_singleton k, by simpa [List.disjoint_singleton] using hk⟩

theorem map_repl_eq_self (d : List (String × α)) (k : String) (v : α)
    (h : k ∉ keysOf d) : d.map (fun p => if p.1 = k then (k, v) else p) = d := by
  induction d with
  | nil => rfl
  | cons p rest ih =>
    have hp : p.1 ≠ k := fun he => h (by simp [keysOf, he])
    have h' : k ∉ keysOf rest := fun hm => h (by simp [keysOf]; right; simpa [keysOf] using hm)
    simp only [List.map_cons, hp, if_false]
    rw [ih h']

theorem dictInsert_eq_self (d : List (String × α)) (k : String) (v : α)
    (hnd : (keysOf d).Nodup) (h : lookupA d k = some v) : dictInsert d k v = d := by
  have hmem : k ∈ keysOf d := lookupA_ne_none_mem d k (by simp [h])
  have hc : containsK d k = true := (containsK_iff d k).2 hmem
  simp only [dictInsert, hc, if_true]
  induction d with
  | nil => simp [keysOf] at hmem
  | cons p rest ih =>
    have hnd' : p.1 ∉ List.map Prod.fst rest ∧ (List.map Prod.fst rest).Nodup := by
      simpa [keysOf] using List.nodup_cons.1 hnd
    by_cases hp : p.1 = k
    · have hv : some p.2 = some v := by
        rw [← h, ← hp]
        exact (lookupA_cons_head p rest).symm
    
      have hrest : k ∉ keysOf rest := by
        rw [← hp]
        simpa [keysOf] using hnd'.1
      simp only [List.map_cons, hp, if_true]
      rw [map_repl_eq_self rest k v hrest]
      have : (k, v) = p := by
        cases p with
        | mk a b =>
          simp only at hp
          cases hp
          cases Option.some.inj hv
          rfl
      rw [this]
    · have hlr : lookupA rest k = some v := by
        rw [← h, lookupA_cons_ne p rest k hp]
      have hmr : k ∈ keysOf rest := lookupA_ne_none_mem rest k (by simp [hlr])
      simp only [List.map_cons, hp, if_false]
      rw [ih (by simpa [keysOf] using hnd'.2) hlr hmr ((containsK_iff rest k).2 hmr)]

theorem mem_dictInsert (d : List (String × α)) (k : String) (v : α)
    (p : String × α) (h : p ∈ dictInsert d k v) : p = (k, v) ∨ p ∈ d := by
  by_cases hc : containsK d k = true
  · simp only [dictInsert, hc, if_true] at h
    rcases List.mem_map.1 h with ⟨q, hq, he⟩
    by_cases hqk : q.1 = k
    · simp only [hqk, if_true] at he
      exact Or.inl he.symm
    · simp only [hqk, if_false] at he
      exact Or.inr (he ▸ hq)
  · have hf : containsK d k = false := by simpa using hc
    simp only [dictInsert, hf, Bool.false_eq_true, if_false] at h
    rcases List.mem_append.1 h with h | h
    · exact Or.inr h
    · exact Or.inl (List.mem_singleton.1 h)

theorem keysOf_cons (p : String × α) (d : List (String × α)) :
    keysOf (p :: d) = p.1 :: keysOf d := rfl

theorem nodup_keys_cons (p : String × α) (d : List (String × α))
    (h : (keysOf (p :: d)).Nodup) : p.1 ∉ keysOf d ∧ (keysOf d).Nodup := by
  rw [keysOf_cons] at h
  exact ⟨(List.nodup_cons.1 h).1, (List.nodup_cons.1 h).2⟩

theorem nodup_keys_dictOfA_aux (l acc : List (String × α))
    (hnd : (keysOf acc).Nodup) :
    (keysOf (l.foldl (fun d p => dictInsert d p.1 p.2) acc)).Nodup := by
  induction l generalizing acc with
  | nil => exact hnd
  | cons p rest ih =>
    exact ih (dictInsert acc p.1 p.2) (nodup_keys_dictInsert acc p.1 p.2 hnd)

theorem nodup_keys_dictOfA (l : List (String × α)) :
    (keysOf (dictOfA l)).Nodup :=
  nodup_keys_dictOfA_aux l [] (by simp [keysOf])

theorem dictOfA_eq_self_aux (l acc : List (String × α))
    (hd : ∀ k, k ∈ keysOf acc → k ∉ keysOf l) (hnd : (keysOf l).Nodup) :
    l.foldl (fun d p => dictInsert d p.1 p.2) acc = acc ++ l := by
  induction l generalizing acc with
  | nil => simp
  | cons p rest ih =>
    have hpk : containsK acc p.1 = false :=
      (containsK_false_iff acc p.1).2 (fun hm => hd p.1 hm (by simp [keysOf]))
    have hcc := nodup_keys_cons p rest hnd
    have hnd' : (keysOf rest).Nodup ∧ p.1 ∉ keysOf rest := ⟨hcc.2, hcc.1⟩
    have step : dictInsert acc p.1 p.2 = acc ++ [p] := by
      simp [dictInsert, hpk]
    simp only [List.foldl_cons, step]
    rw [ih (acc ++ [p])]
    · simp
    · intro k hk
      rcases (by simpa [keysOf] using hk : k ∈ keysOf acc ∨ k = p.1) with h | h
      · intro hr
        exact hd k h (by simp [keysOf]; right; simpa [keysOf] using hr)
      · subst h
        simpa [keysOf] using hnd'.2
    · exact hnd'.1

theorem dictOfA_eq_self (l : List (String × α)) (hnd : (keysOf l).Nodup) :
    dictOfA l = l := by
  unfold dictOfA
  rw [dictOfA_eq_self_aux l [] (by simp [keysOf]) hnd]
  simp

theorem assoc_ext (l1 l2 : List (String × α)) (hk : keysOf l1 = keysOf l2)
    (hnd : (keysOf l1).Nodup) (hl : ∀ k, lookupA l1 k = lookupA l2 k) :
    l1 = l2 := by
  induction l1 generalizing l2 with
  | nil =>
    cases l2 with
    | nil => rfl
    | cons q t => simp [keysOf] at hk
  | cons p t1 ih =>
    cases l2 with
    | nil => simp [keysOf] at hk
    | cons q t2 =>
      have hk' : p.1 = q.1 ∧ keysOf t1 = keysOf t2 := by simpa [keysOf] using hk
      have hv : p.2 = q.2 := by
        have h1 := lookupA_cons_head p t1
        have h2 := lookupA_cons_head q t2
        have h3 := hl p.1
        rw [h1] at h3
        rw [hk'.1, h2] at h3
        exact Option.some.inj h3
      have hnotin : p.1 ∉ keysOf t1 := (nodup_keys_cons p t1 hnd).1
      have hnotin2 : p.1 ∉ keysOf t2 := hk'.2 ▸ hnotin
      have htl : ∀ k, lookupA t1 k = lookupA t2 k := by
        intro k
        by_cases hkp : k = p.1
        · subst hkp
          rw [lookupA_eq_none t1 p.1 hnotin, lookupA_eq_none t2 p.1 hnotin2]
        · have h3 := hl k
          rw [lookupA_cons_ne p t1 k (fun h => hkp h.symm)] at h3
          rw [lookupA_cons_ne q t2 k (fun h => hkp (hk'.1 ▸ h).symm)] at h3
          exact h3
      have hpq : p = q := Prod.ext hk'.1 hv
      rw [hpq, ih t2 hk'.2 (nodup_keys_cons p t1 hnd).2 htl]

/- =====================================================================
   Lemmas: the merge_tags overlay fold
   ===================================================================== -/

theorem mergeTagStep_eq (d : List (String × String)) (t : String × String) :
    mergeTagStep d t =
      if isProtectedTagKey t.1 && containsK d t.1 then d
      else dictInsert d t.1 t.2 := by
  unfold mergeTagStep
  cases hp : isProtectedTagKey t.1 <;> cases hc : containsK d t.1 <;> simp [hp, hc]

theorem containsK_dictInsert_mono (d : List (String × α)) (k k2 : String) (v : α)
    (h : containsK d k = true) : containsK (dictInsert d k2 v) k = true := by
  rw [containsK_iff] at h ⊢
  by_cases hc : containsK d k2 = true
  · rw [keysOf_dictInsert_mem d k2 v hc]
    exact h
  · rw [keysOf_dictInsert_not_mem d k2 v (by simpa using hc)]
    exact List.mem_append_left _ h

theorem containsK_dictInsert_self (d : List (String × α)) (k : String) (v : α) :
    containsK (dictInsert d k v) k = true := by
  rw [containsK_iff]
  by_cases hc : containsK d k = true
  · rw [keysOf_dictInsert_mem d k v hc]
    exact (containsK_iff d k).1 hc
  · rw [keysOf_dictInsert_not_mem d k v (by simpa using hc)]
    exact List.mem_append_right _ (by simp)

theorem containsK_mergeTagStep_mono (d : List (String × String))
    (t : String × String) (k : String) (h : containsK d k = true) :
    containsK (mergeTagStep d t) k = true := by
  rw [mergeTagStep_eq]
  by_cases hc : (isProtectedTagKey t.1 && containsK d t.1) = true
  · simpa [hc] using h
  · simp only [hc, Bool.false_eq_true, if_false, (by simpa using hc : ¬(isProtectedTagKey t.1 && containsK d t.1) = true)]
    exact containsK_dictInsert_mono d k t.1 t.2 h

theorem containsK_dictInsert_ne (d : List (String × α)) (k k2 : String) (v : α)
    (hne : k2 ≠ k) : containsK (dictInsert d k2 v) k = containsK d k := by
  by_cases h : containsK d k = true
  · rw [h]
    exact containsK_dictInsert_mono d k k2 v h
  · have hf : containsK d k = false := by simpa using h
    rw [hf, containsK_false_iff]
    have hf' : k ∉ keysOf d := (containsK_false_iff d k).1 hf
    by_cases hc2 : containsK d k2 = true
    · rw [keysOf_dictInsert_mem d k2 v hc2]
      exact hf'
    · rw [keysOf_dictInsert_not_mem d k2 v (by simpa using hc2)]
      intro hmem
      rcases List.mem_append.1 hmem with h | h
      · exact hf' h
      · exact hne (List.mem_singleton.1 h).symm

theorem containsK_mergeTagStep_ne (d : List (String × String))
    (t : String × String) (k : String) (hne : t.1 ≠ k) :
    containsK (mergeTagStep d t) k = containsK d k := by
  rw [mergeTagStep_eq]
  by_cases hc : (isProtectedTagKey t.1 && containsK d t.1) = true
  · simp [hc]
  · simp only [(by simpa using hc : (isProtectedTagKey t.1 && containsK d t.1) = false), Bool.false_eq_true, if_false]
    exact containsK_dictInsert_ne d k t.1 t.2 hne

theorem containsK_mergeFold_mono (ts : List (String × String))
    (d : List (String × String)) (k : String) (h : containsK d k = true) :
    containsK (ts.foldl mergeTagStep d) k = true := by
  induction ts generalizing d with
  | nil => exact h
  | cons t rest ih =>
    exact ih (mergeTagStep d t) (containsK_mergeTagStep_mono d t k h)

theorem lookupA_mergeTagStep_ne (d : List (String × String))
    (t : String × String) (k : String) (hne : t.1 ≠ k) :
    lookupA (mergeTagStep d t) k = lookupA d k := by
  rw [mergeTagStep_eq]
  by_cases hc : (isProtectedTagKey t.1 && containsK d t.1) = true
  · simp [hc]
  · simp only [(by simpa using hc : (isProtectedTagKey t.1 && containsK d t.1) = false), Bool.false_eq_true, if_false]
    exact lookupA_dictInsert_ne d t.1 k t.2 (fun h => hne h.symm)

theorem lookupA_mergeFold_not_mem (ts : List (String × String))
    (d : List (String × String)) (k : String) (h : k ∉ keysOf ts) :
    lookupA (ts.foldl mergeTagStep d) k = lookupA d k := by
  induction ts generalizing d with
  | nil => rfl
  | cons t rest ih =>
    have hne : t.1 ≠ k := fun he => h (by simp [keysOf, he])
    have h' : k ∉ keysOf rest := fun hm => h (by simp [keysOf]; right; simpa [keysOf] using hm)
    simp only [List.foldl_cons]
    rw [ih (mergeTagStep d t) h', lookupA_mergeTagStep_ne d t k hne]

theorem lookupA_mergeFold_protected (ts : List (String × String))
    (d : List (String × String)) (k : String)
    (hp : isProtectedTagKey k = true) (hc : containsK d k = true) :
    lookupA (ts.foldl mergeTagStep d) k = lookupA d k := by
  induction ts generalizing d with
  | nil => rfl
  | cons t rest ih =>
    simp only [List.foldl_cons]
    by_cases hne : t.1 = k
    · have hstep : mergeTagStep d t = d := by
        rw [mergeTagStep_eq, hne, hp, hc]
        simp
      rw [hstep]
      exact ih d hc
    · rw [ih (mergeTagStep d t) (containsK_mergeTagStep_mono d t k hc),
        lookupA_mergeTagStep_ne d t k hne]

theorem lookupA_mergeFold_unprotected_mem (ts : List (String × String))
    (d : List (String × String)) (k w : String)
    (hp : isProtectedTagKey k = false) (hm : (k, w) ∈ ts)
    (hnd : (keysOf ts).Nodup) :
    lookupA (ts.foldl mergeTagStep d) k = some w := by
  induction ts generalizing d with
  | nil => cases hm
  | cons t rest ih =>
    have hcc := nodup_keys_cons t rest hnd
    simp only [List.foldl_cons]
    rcases List.mem_cons.1 hm with he | hm'
    · have ht1 : t.1 = k := by rw [← he]
      have hstep : mergeTagStep d t = dictInsert d k w := by
        rw [mergeTagStep_eq, ht1, hp, ← he]
        simp
      have hout : k ∉ keysOf rest := ht1 ▸ hcc.1
      rw [hstep, lookupA_mergeFold_not_mem rest _ k hout,
        lookupA_dictInsert_self]
    · exact ih (mergeTagStep d t) hm' hcc.2

theorem lookupA_mergeFold_absent_mem (ts : List (String × String))
    (d : List (String × String)) (k w : String)
    (hc : containsK d k = false) (hm : (k, w) ∈ ts)
    (hnd : (keysOf ts).Nodup) :
    lookupA (ts.foldl mergeTagStep d) k = some w := by
  induction ts generalizing d with
  | nil => cases hm
  | cons t rest ih =>
    have hcc := nodup_keys_cons t rest hnd
    simp only [List.foldl_cons]
    rcases List.mem_cons.1 hm with he | hm'
    · have ht1 : t.1 = k := by rw [← he]
      have hstep : mergeTagStep d t = dictInsert d k w := by
        rw [mergeTagStep_eq, ht1, hc, ← he]
        simp [ht1]
      have hout : k ∉ keysOf rest := ht1 ▸ hcc.1
      rw [hstep, lookupA_mergeFold_not_mem rest _ k hout,
        lookupA_dictInsert_self]
    · have ht1 : t.1 ≠ k := by
        intro he2
        have : k ∈ keysOf rest := by
          rw [← (by rfl : (k, w).1 = k)]
          exact List.mem_map_of_mem Prod.fst hm'
        exact (he2 ▸ hcc.1) this
      exact ih (mergeTagStep d t) (by rw [containsK_mergeTagStep_ne d t k ht1]; exact hc) hm' hcc.2

theorem containsK_mergeFold_of_mem (ts : List (String × String))
    (d : List (String × String)) (k w : String) (hm : (k, w) ∈ ts) :
    containsK (ts.foldl mergeTagStep d) k = true := by
  induction ts generalizing d with
  | nil => cases hm
  | cons t rest ih =>
    simp only [List.foldl_cons]
    rcases List.mem_cons.1 hm with he | hm'
    · have ht1 : t.1 = k := by rw [← he]
      apply containsK_mergeFold_mono
      rw [mergeTagStep_eq]
      by_cases hcond : (isProtectedTagKey t.1 && containsK d t.1) = true
      · simp only [hcond, if_true]
        exact ht1 ▸ (Bool.and_elim_right hcond)
      · simp only [(by simpa using hcond : (isProtectedTagKey t.1 && containsK d t.1) = false), Bool.false_eq_true, if_false]
        exact ht1 ▸ containsK_dictInsert_self d t.1 t.2
    · exact ih (mergeTagStep d t) hm'

theorem keysOf_mergeFold (ts : List (String × String))
    (d : List (String × String)) (h : ∀ p ∈ ts, containsK d p.1 = true) :
    keysOf (ts.foldl mergeTagStep d) = keysOf d := by
  induction ts generalizing d with
  | nil => rfl
  | cons t rest ih =>
    have hstepkeys : keysOf (mergeTagStep d t) = keysOf d := by
      rw [mergeTagStep_eq]
      by_cases hcond : (isProtectedTagKey t.1 && containsK d t.1) = true
      · simp [hcond]
      · simp only [(by simpa using hcond : (isProtectedTagKey t.1 && containsK d t.1) = false), Bool.false_eq_true, if_false]
        exact keysOf_dictInsert_mem d t.1 t.2 (h t (by simp))
    simp only [List.foldl_cons]
    rw [ih (mergeTagStep d t) (fun p hp => by
      rw [containsK_iff, hstepkeys, ← containsK_iff]
      exact h p (by simp [hp])), hstepkeys]

theorem nodup_keys_mergeFold (ts : List (String × String))
    (d : List (String × String)) (h : (keysOf d).Nodup) :
    (keysOf (ts.foldl mergeTagStep d)).Nodup := by
  induction ts generalizing d with
  | nil => exact h
  | cons t rest ih =>
    apply ih
    rw [mergeTagStep_eq]
    by_cases hcond : (isProtectedTagKey t.1 && containsK d t.1) = true
    · simp [hcond, h]
    · simp only [(by simpa using hcond : (isProtectedTagKey t.1 && containsK d t.1) = false), Bool.false_eq_true, if_false]
      exact nodup_keys_dictInsert d t.1 t.2 h

theorem nodup_keys_merge_tags (a b : List (String × String)) :
    (keysOf (merge_tags a b)).Nodup :=
  nodup_keys_mergeFold b (dictOfA a) (nodup_keys_dictOfA a)

theorem exists_value_of_mem_keys (l : List (String × α)) (k : String)
    (h : k ∈ keysOf l) : ∃ w, (k, w) ∈ l := by
  rcases List.mem_map.1 h with ⟨p, hp, he⟩
  refine ⟨p.2, ?_⟩
  rw [← he]
  simpa using hp

/-- Merging the same overlay twice is absorbed (for overlays without
    duplicate keys): the second pass re-applies exactly the values the
    first pass already wrote and drops exactly what it already dropped. -/
theorem merge_tags_absorb (a b : List (String × String))
    (hb : (keysOf b).Nodup) :
    merge_tags (merge_tags a b) b = merge_tags a b := by
  have hmnd := nodup_keys_merge_tags a b
  have hcont : ∀ p ∈ b, containsK (merge_tags a b) p.1 = true := by
    intro p hp
    exact containsK_mergeFold_of_mem b (dictOfA a) p.1 p.2 (by simpa using hp)
  show b.foldl mergeTagStep (dictOfA (merge_tags a b)) = merge_tags a b
  rw [dictOfA_eq_self _ hmnd]
  apply assoc_ext
  · exact keysOf_mergeFold b _ hcont
  · exact nodup_keys_mergeFold b _ hmnd
  · intro k
    by_cases hkb : k ∈ keysOf b
    · obtain ⟨w, hw⟩ := exists_value_of_mem_keys b k hkb
      by_cases hp : isProtectedTagKey k = true
      · exact lookupA_mergeFold_protected b _ k hp (hcont (k, w) hw)
      · have hp' : isProtectedTagKey k = false := by simpa using hp
        rw [lookupA_mergeFold_unprotected_mem b _ k w hp' hw hb]
        exact (lookupA_mergeFold_unprotected_mem b (dictOfA a) k w hp' hw hb).symm
    · exact lookupA_mergeFold_not_mem b _ k hkb

/-- Merging a duplicate-free tag list with itself is the identity. -/
theorem merge_tags_self (l : List (String × String))
    (h : (keysOf l).Nodup) : merge_tags l l = l := by
  show l.foldl mergeTagStep (dictOfA l) = l
  rw [dictOfA_eq_self l h]
  apply assoc_ext
  · apply keysOf_mergeFold
    intro p hp
    exact (containsK_iff _ _).2 (List.mem_map_of_mem Prod.fst hp)
  · exact nodup_keys_mergeFold l l h
  · intro k
    by_cases hkb : k ∈ keysOf l
    · obtain ⟨w, hw⟩ := exists_value_of_mem_keys l k hkb
      by_cases hp : isProtectedTagKey k = true
      · exact lookupA_mergeFold_protected l l k hp ((containsK_iff l k).2 hkb)
      · rw [lookupA_mergeFold_unprotected_mem l l k w (by simpa using hp) hw h,
          lookupA_of_mem_nodup l k w h hw]
    · exact lookupA_mergeFold_not_mem l l k hkb

/- =====================================================================
   Lemmas: deep_update
   ===================================================================== -/

theorem deep_update_nil (o : List (String × JVal)) : deep_update o [] = o := rfl

theorem deep_update_cons (o : List (String × JVal)) (k : String) (v : JVal)
    (rest : List (String × JVal)) :
    deep_update o ((k, v) :: rest) =
      deep_update (dictInsert o k (deepUpdateVal (lookupA o k) v)) rest := rfl

theorem lookupA_deep_update_not_mem (u o : List (String × JVal)) (k : String)
    (h : k ∉ keysOf u) : lookupA (deep_update o u) k = lookupA o k := by
  induction u generalizing o with
  | nil => rfl
  | cons p rest ih =>
    cases p with
    | mk j w =>
      have hne : j ≠ k := fun he => h (by simp [keysOf, he])
      have h' : k ∉ keysOf rest := fun hm => h (by simp [keysOf]; right; simpa [keysOf] using hm)
      rw [deep_update_cons, ih _ h', lookupA_dictInsert_ne o j k _ (fun he => hne he.symm)]

theorem containsK_deep_update_mono (u o : List (String × JVal)) (k : String)
    (h : containsK o k = true) : containsK (deep_update o u) k = true := by
  induction u generalizing o with
  | nil => exact h
  | cons p rest ih =>
    cases p with
    | mk j w =>
      rw [deep_update_cons]
      exact ih _ (containsK_dictInsert_mono o k j _ h)

theorem containsK_deep_update_of_mem (u o : List (String × JVal))
    (k : String) (v : JVal) (hm : (k, v) ∈ u) :
    containsK (deep_update o u) k = true := by
  induction u generalizing o with
  | nil => cases hm
  | cons p rest ih =>
    cases p with
    | mk j w =>
      rw [deep_update_cons]
      rcases List.mem_cons.1 hm with he | hm'
      · injection he with h1 h2
        subst h1
        exact containsK_deep_update_mono rest _ k (containsK_dictInsert_self o k _)
      · exact ih _ hm'

theorem nodup_keys_deep_update (u o : List (String × JVal))
    (h : (keysOf o).Nodup) : (keysOf (deep_update o u)).Nodup := by
  induction u generalizing o with
  | nil => exact h
  | cons p rest ih =>
    cases p with
    | mk j w =>
      rw [deep_update_cons]
      exact ih _ (nodup_keys_dictInsert o j _ h)

theorem nodupB_iff (l : List String) : nodupB l = true ↔ l.Nodup := by
  induction l with
  | nil => simp [nodupB]
  | cons k ks ih =>
    rw [show nodupB (k :: ks) = (!(ks.contains k) && nodupB ks) from rfl,
      Bool.and_eq_true, ih, List.nodup_cons]
    have hc : (ks.contains k = true) ↔ k ∈ ks := List.elem_iff
    constructor
    · rintro ⟨h1, h2⟩
      refine ⟨fun hm => ?_, h2⟩
      rw [Bool.not_eq_true', ← Bool.not_eq_true] at h1
      exact h1 (hc.2 hm)
    · rintro ⟨h1, h2⟩
      refine ⟨?_, h2⟩
      rw [Bool.not_eq_true', ← Bool.not_eq_true]
      exact fun hcc => h1 (hc.1 hcc)

theorem wfEntries_iff (d : List (String × JVal)) :
    wfEntries d = true ↔ ∀ p ∈ d, wfVal p.2 = true := by
  induction d with
  | nil => simp [wfEntries]
  | cons p rest ih =>
    cases p with
    | mk k v =>
      rw [show wfEntries ((k, v) :: rest) = (wfVal v && wfEntries rest) from rfl]
      rw [Bool.and_eq_true, ih]
      constructor
      · rintro ⟨h1, h2⟩ q hq
        rcases List.mem_cons.1 hq with he | hq'
        · rw [he]
          exact h1
        · exact h2 q hq'
      · intro h
        exact ⟨h (k, v) (by simp), fun q hq => h q (by simp [hq])⟩

theorem wfVal_dict_parts (d : List (String × JVal))
    (h : wfVal (JVal.dict d) = true) :
    (keysOf d).Nodup ∧ wfEntries d = true := by
  rw [show wfVal (JVal.dict d) = (nodupB (keysOf d) && wfEntries d) from rfl,
    Bool.and_eq_true] at h
  exact ⟨(nodupB_iff _).1 h.1, h.2⟩

theorem wfVal_list_nodup (ts : List (String × String))
    (h : wfVal (JVal.list ts) = true) : (keysOf ts).Nodup := by
  rw [show wfVal (JVal.list ts) = nodupB (ts.map Prod.fst) from rfl] at h
  exact (nodupB_iff _).1 h

theorem lookupA_mem (d : List (String × α)) (k : String) (v : α)
    (h : lookupA d k = some v) : ∃ k2, (k2, v) ∈ d := by
  unfold lookupA at h
  cases hf : d.find? (fun p => p.1 = k) with
  | none => rw [hf] at h; cases h
  | some p =>
    rw [hf] at h
    refine ⟨p.1, ?_⟩
    have hm := List.mem_of_find?_eq_some hf
    have : p.2 = v := Option.some.inj h
    rw [← this]
    simpa using hm

theorem wfEntries_dictInsert (d : List (String × JVal)) (k : String) (v : JVal)
    (hd : wfEntries d = true) (hv : wfVal v = true) :
    wfEntries (dictInsert d k v) = true := by
  rw [wfEntries_iff]
  intro p hp
  rcases mem_dictInsert d k v p hp with he | hm
  · rw [he]
    exact hv
  · exact (wfEntries_iff d).1 hd p hm

theorem wfVal_of_lookupA (o : List (String × JVal)) (k : String) (jv : JVal)
    (hwf : wfEntries o = true) (h : lookupA o k = some jv) : wfVal jv = true := by
  obtain ⟨k2, hm⟩ := lookupA_mem o k jv h
  exact (wfEntries_iff o).1 hwf (k2, jv) hm

theorem deep_update_id_n : ∀ (n : Nat) (r : List (String × JVal)), sizeOf r < n →
    ∀ D, (keysOf D).Nodup → wfEntries r = true →
    (∀ p ∈ r, lookupA D p.1 = some p.2) → deep_update D r = D := by
  intro n
  induction n with
  | zero =>
    intro r hr
    omega
  | succ n ih =>
    intro r hr D hnd hwf hlk
    cases r with
    | nil => rfl
    | cons p rest =>
      obtain ⟨k, v⟩ := p
      have hlkD : lookupA D k = some v := hlk (k, v) (by simp)
      have hw : wfVal v = true ∧ wfEntries rest = true := by
        rw [show wfEntries ((k, v) :: rest) = (wfVal v && wfEntries rest) from rfl,
          Bool.and_eq_true] at hwf
        exact hwf
      have hstep : dictInsert D k (deepUpdateVal (lookupA D k) v) = D := by
        rw [hlkD]
        cases v with
        | str s =>
          rw [show deepUpdateVal (some (JVal.str s)) (JVal.str s) = JVal.str s from rfl]
          exact dictInsert_eq_self D k _ hnd hlkD
        | dict ud =>
          have hud := wfVal_dict_parts ud hw.1
          have hsz : sizeOf ud < n := by
            have h1 : sizeOf ud < sizeOf ((k, JVal.dict ud) :: rest) := by
              simp
              omega
            omega
          have hidu : deep_update ud ud = ud :=
            ih ud hsz ud hud.1 hud.2
              (fun q hq => lookupA_of_mem_nodup ud q.1 q.2 hud.1 (by simpa using hq))
          rw [show deepUpdateVal (some (JVal.dict ud)) (JVal.dict ud)
              = JVal.dict (deep_update ud ud) from rfl, hidu]
          exact dictInsert_eq_self D k _ hnd hlkD
        | list ul =>
          have hul := wfVal_list_nodup ul hw.1
          rw [show deepUpdateVal (some (JVal.list ul)) (JVal.list ul)
              = JVal.list (merge_tags ul ul) from rfl, merge_tags_self ul hul]
          exact dictInsert_eq_self D k _ hnd hlkD
      rw [deep_update_cons, hstep]
      have hsz2 : sizeOf rest < n := by
        have h1 : sizeOf rest < sizeOf ((k, v) :: rest) := by
          simp
        omega
      exact ih rest hsz2 D hnd hw.2 (fun q hq => hlk q (List.mem_cons_of_mem _ hq))

/-- deep_update of a well-formed fragment into itself is the identity. -/
theorem deep_update_self_wf (d : List (String × JVal))
    (h1 : (keysOf d).Nodup) (h2 : wfEntries d = true) :
    deep_update d d = d :=
  deep_update_id_n (sizeOf d + 1) d (by omega) d h1 h2
    (fun p hp => lookupA_of_mem_nodup d p.1 p.2 h1 (by simpa using hp))

theorem deep_update_wf_n : ∀ (n : Nat) (u : List (String × JVal)), sizeOf u < n →
    ∀ o, (keysOf o).Nodup → wfEntries o = true → wfEntries u = true →
    (keysOf (deep_update o u)).Nodup ∧ wfEntries (deep_update o u) = true := by
  intro n
  induction n with
  | zero =>
    intro u hu
    omega
  | succ n ih =>
    intro u hu o hond howf huwf
    cases u with
    | nil => exact ⟨hond, howf⟩
    | cons p rest =>
      obtain ⟨k, v⟩ := p
      have hw : wfVal v = true ∧ wfEntries rest = true := by
        rw [show wfEntries ((k, v) :: rest) = (wfVal v && wfEntries rest) from rfl,
          Bool.and_eq_true] at huwf
        exact huwf
      have hwval : wfVal (deepUpdateVal (lookupA o k) v) = true := by
        cases hx : lookupA o k with
        | none => cases v <;> exact hw.1
        | some jv =>
          cases jv with
          | str s => cases v <;> exact hw.1
          | dict od =>
            cases v with
            | str s => exact hw.1
            | list ul => exact hw.1
            | dict ud =>
              have hod := wfVal_dict_parts od (wfVal_of_lookupA o k _ howf hx)
              have hud := wfVal_dict_parts ud hw.1
              have hsz : sizeOf ud < n := by
                have h1 : sizeOf ud < sizeOf ((k, JVal.dict ud) :: rest) := by
                  simp
                  omega
                omega
              have hres := ih ud hsz od hod.1 hod.2 hud.2
              rw [show deepUpdateVal (some (JVal.dict od)) (JVal.dict ud)
                  = JVal.dict (deep_update od ud) from rfl]
              rw [show wfVal (JVal.dict (deep_update od ud))
                  = (nodupB (keysOf (deep_update od ud)) && wfEntries (deep_update od ud)) from rfl,
                Bool.and_eq_true]
              exact ⟨(nodupB_iff _).2 hres.1, hres.2⟩
          | list ol =>
            cases v with
            | str s => exact hw.1
            | dict ud => exact hw.1
            | list ul =>
              rw [show deepUpdateVal (some (JVal.list ol)) (JVal.list ul)
                  = JVal.list (merge_tags ol ul) from rfl]
              rw [show wfVal (JVal.list (merge_tags ol ul))
                  = nodupB ((merge_tags ol ul).map Prod.fst) from rfl]
              exact (nodupB_iff _).2 (nodup_keys_merge_tags ol ul)
      rw [deep_update_cons]
      have hsz2 : sizeOf rest < n := by
        have h1 : sizeOf rest < sizeOf ((k, v) :: rest) := by
          simp
        omega
      exact ih rest hsz2 _ (nodup_keys_dictInsert o k _ hond)
        (wfEntries_dictInsert o k _ howf hwval) hw.2

/-- deep_update preserves well-formedness. -/
theorem deep_update_wf (o u : List (String × JVal))
    (h1 : (keysOf o).Nodup) (h2 : wfEntries o = true) (h3 : wfEntries u = true) :
    (keysOf (deep_update o u)).Nodup ∧ wfEntries (deep_update o u) = true :=
  deep_update_wf_n (sizeOf u + 1) u (by omega) o h1 h2 h3

theorem wfVal_deepUpdateVal (o : List (String × JVal)) (k : String) (v : JVal)
    (howf : wfEntries o = true) (hv : wfVal v = true) :
    wfVal (deepUpdateVal (lookupA o k) v) = true := by
  cases hx : lookupA o k with
  | none => cases v <;> exact hv
  | some jv =>
    cases jv with
    | str s => cases v <;> exact hv
    | dict od =>
      cases v with
      | str s => exact hv
      | list ul => exact hv
      | dict ud =>
        have hod := wfVal_dict_parts od (wfVal_of_lookupA o k _ howf hx)
        have hud := wfVal_dict_parts ud hv
        have hres := deep_update_wf od ud hod.1 hod.2 hud.2
        rw [show deepUpdateVal (some (JVal.dict od)) (JVal.dict ud)
            = JVal.dict (deep_update od ud) from rfl]
        rw [show wfVal (JVal.dict (deep_update od ud))
            = (nodupB (keysOf (deep_update od ud)) && wfEntries (deep_update od ud)) from rfl,
          Bool.and_eq_true]
        exact ⟨(nodupB_iff _).2 hres.1, hres.2⟩
    | list ol =>
      cases v with
      | str s => exact hv
      | dict ud => exact hv
      | list ul =>
        rw [show deepUpdateVal (some (JVal.list ol)) (JVal.list ul)
            = JVal.list (merge_tags ol ul) from rfl]
        rw [show wfVal (JVal.list (merge_tags ol ul))
            = nodupB ((merge_tags ol ul).map Prod.fst) from rfl]
        exact (nodupB_iff _).2 (nodup_keys_merge_tags ol ul)

theorem deep_update_absorb_n : ∀ (n : Nat) (B : List (String × JVal)), sizeOf B < n →
    ∀ C, (keysOf C).Nodup → wfEntries C = true →
    (keysOf B).Nodup → wfEntries B = true →
    deep_update (deep_update C B) B = deep_update C B := by
  intro n
  induction n with
  | zero =>
    intro B hB
    omega
  | succ n ih =>
    intro B hB C hCnd hCwf hBnd hBwf
    cases B with
    | nil => rfl
    | cons p rest =>
      obtain ⟨k, v⟩ := p
      have hBc := nodup_keys_cons (k, v) rest hBnd
      have hw : wfVal v = true ∧ wfEntries rest = true := by
        rw [show wfEntries ((k, v) :: rest) = (wfVal v && wfEntries rest) from rfl,
          Bool.and_eq_true] at hBwf
        exact hBwf
      have hDnd : (keysOf (dictInsert C k (deepUpdateVal (lookupA C k) v))).Nodup :=
        nodup_keys_dictInsert C k _ hCnd
      have hwval : wfVal (deepUpdateVal (lookupA C k) v) = true :=
        wfVal_deepUpdateVal C k v hCwf hw.1
      have hDwf : wfEntries (dictInsert C k (deepUpdateVal (lookupA C k) v)) = true :=
        wfEntries_dictInsert C k _ hCwf hwval
      have hlkE : lookupA
          (deep_update (dictInsert C k (deepUpdateVal (lookupA C k) v)) rest) k
          = some (deepUpdateVal (lookupA C k) v) := by
        rw [lookupA_deep_update_not_mem rest _ k hBc.1]
        exact lookupA_dictInsert_self C k _
      have hEnd : (keysOf
          (deep_update (dictInsert C k (deepUpdateVal (lookupA C k) v)) rest)).Nodup :=
        nodup_keys_deep_update rest _ hDnd
      have hcollapse : deepUpdateVal (some (deepUpdateVal (lookupA C k) v)) v
          = deepUpdateVal (lookupA C k) v := by
        cases hx : lookupA C k with
        | none =>
          cases v with
          | str s => rfl
          | dict ud =>
            have hud := wfVal_dict_parts ud hw.1
            show deepUpdateVal (some (JVal.dict ud)) (JVal.dict ud) = JVal.dict ud
            rw [show deepUpdateVal (some (JVal.dict ud)) (JVal.dict ud)
                = JVal.dict (deep_update ud ud) from rfl,
              deep_update_self_wf ud hud.1 hud.2]
          | list ul =>
            show deepUpdateVal (some (JVal.list ul)) (JVal.list ul) = JVal.list ul
            rw [show deepUpdateVal (some (JVal.list ul)) (JVal.list ul)
                = JVal.list (merge_tags ul ul) from rfl,
              merge_tags_self ul (wfVal_list_nodup ul hw.1)]
        | some jv =>
          cases jv with
          | str s =>
            cases v with
            | str s2 => rfl
            | dict ud =>
              have hud := wfVal_dict_parts ud hw.1
              show deepUpdateVal (some (JVal.dict ud)) (JVal.dict ud) = JVal.dict ud
              rw [show deepUpdateVal (some (JVal.dict ud)) (JVal.dict ud)
                  = JVal.dict (deep_update ud ud) from rfl,
                deep_update_self_wf ud hud.1 hud.2]
            | list ul =>
              show deepUpdateVal (some (JVal.list ul)) (JVal.list ul) = JVal.list ul
              rw [show deepUpdateVal (some (JVal.list ul)) (JVal.list ul)
                  = JVal.list (merge_tags ul ul) from rfl,
                merge_tags_self ul (wfVal_list_nodup ul hw.1)]
          | dict od =>
            cases v with
            | str s2 => rfl
            | dict ud =>
              have hod := wfVal_dict_parts od (wfVal_of_lookupA C k _ hCwf hx)
              have hud := wfVal_dict_parts ud hw.1
              have hsz : sizeOf ud < n := by
                have h1 : sizeOf ud < sizeOf ((k, JVal.dict ud) :: rest) := by
                  simp
                  omega
                omega
              show deepUpdateVal (some (JVal.dict (deep_update od ud))) (JVal.dict ud)
                  = JVal.dict (deep_update od ud)
              rw [show deepUpdateVal (some (JVal.dict (deep_update od ud))) (JVal.dict ud)
                  = JVal.dict (deep_update (deep_update od ud) ud) from rfl,
                ih ud hsz od hod.1 hod.2 hud.1 hud.2]
            | list ul =>
              show deepUpdateVal (some (JVal.list ul)) (JVal.list ul) = JVal.list ul
              rw [show deepUpdateVal (some (JVal.list ul)) (JVal.list ul)
                  = JVal.list (merge_tags ul ul) from rfl,
                merge_tags_self ul (wfVal_list_nodup ul hw.1)]
          | list ol =>
            cases v with
            | str s2 => rfl
            | dict ud =>
              have hud := wfVal_dict_parts ud hw.1
              show deepUpdateVal (some (JVal.dict ud)) (JVal.dict ud) = JVal.dict ud
              rw [show deepUpdateVal (some (JVal.dict ud)) (JVal.dict ud)
                  = JVal.dict (deep_update ud ud) from rfl,
                deep_update_self_wf ud hud.1 hud.2]
            | list ul =>
              show deepUpdateVal (some (JVal.list (merge_tags ol ul))) (JVal.list ul)
                  = JVal.list (merge_tags ol ul)
              rw [show deepUpdateVal (some (JVal.list (merge_tags ol ul))) (JVal.list ul)
                  = JVal.list (merge_tags (merge_tags ol ul) ul) from rfl,
                merge_tags_absorb ol ul (wfVal_list_nodup ul hw.1)]
      have hstar : dictInsert
          (deep_update (dictInsert C k (deepUpdateVal (lookupA C k) v)) rest) k
          (deepUpdateVal (lookupA
            (deep_update (dictInsert C k (deepUpdateVal (lookupA C k) v)) rest) k) v)
          = deep_update (dictInsert C k (deepUpdateVal (lookupA C k) v)) rest := by
        rw [hlkE, hcollapse]
        exact dictInsert_eq_self _ k _ hEnd hlkE
      have hsz2 : sizeOf rest < n := by
        have h1 : sizeOf rest < sizeOf ((k, v) :: rest) := by
          simp
        omega
      rw [deep_update_cons C k v rest,
        deep_update_cons (deep_update (dictInsert C k (deepUpdateVal (lookupA C k) v)) rest) k v rest,
        hstar]
      exact ih rest hsz2 _ hDnd hDwf hBc.2 hw.2

/-- Applying the same well-formed fragment twice through deep_update is the
    same as applying it once. -/
theorem deep_update_absorb (C B : List (String × JVal))
    (hCnd : (keysOf C).Nodup) (hCwf : wfEntries C = true)
    (hBnd : (keysOf B).Nodup) (hBwf : wfEntries B = true) :
    deep_update (deep_update C B) B = deep_update C B :=
  deep_update_absorb_n (sizeOf B + 1) B (by omega) C hCnd hCwf hBnd hBwf

/- =====================================================================
   Lemmas: compare_configurations
   ===================================================================== -/

theorem mem_unionKeys (a b : List String) (k : String) :
    k ∈ unionKeys a b ↔ k ∈ a ∨ k ∈ b := by
  rw [unionKeys, List.mem_dedup, List.mem_append]

theorem foldl_diffFlag (keys : List String) (P : String → Prop) [DecidablePred P]
    (acc : Bool) :
    keys.foldl (fun differences k => if P k then true else differences) acc
      = (acc || keys.any (fun k => decide (P k))) := by
  induction keys generalizing acc with
  | nil => simp
  | cons k ks ih =>
    simp only [List.foldl_cons, List.any_cons]
    by_cases h : P k
    · rw [if_pos h, ih true]
      simp [h]
    · rw [if_neg h, ih acc]
      simp [h]

theorem domainDiff_eq [DecidableEq α] (l r : List (String × α)) (acc : Bool) :
    domainDiff l r acc
      = (acc || (unionKeys (keysOf l) (keysOf r)).any
          (fun k => decide (lookupA l k ≠ lookupA r k))) := by
  unfold domainDiff
  exact foldl_diffFlag _ _ acc

theorem domainDiff_iff [DecidableEq α] (l r : List (String × α)) :
    (domainDiff l r false = true) ↔ ∃ k, lookupA l k ≠ lookupA r k := by
  rw [domainDiff_eq, Bool.false_or, List.any_eq_true]
  constructor
  · rintro ⟨k, _, hk⟩
    exact ⟨k, by simpa using hk⟩
  · rintro ⟨k, hk⟩
    refine ⟨k, ?_, by simpa using hk⟩
    rw [mem_unionKeys]
    by_cases h1 : k ∈ keysOf l
    · exact Or.inl h1
    · by_cases h2 : k ∈ keysOf r
      · exact Or.inr h2
      · exact absurd (by rw [lookupA_eq_none l k h1, lookupA_eq_none r k h2]) hk

/- =====================================================================
   Lemmas: shlex and the parameter-override round trip
   ===================================================================== -/

theorem string_toList_append (a b : String) : (a ++ b).toList = a.toList ++ b.toList := rfl

theorem string_mk_toList (s : String) : String.mk s.toList = s := rfl

theorem shlex_step_inD_qD (acc : Option (List Char)) (rest : List Char) :
    shlexAux .inD acc (qD :: rest) = shlexAux .normal acc rest := by
  rw [shlexAux.eq_def]
  simp

theorem shlex_step_inD_char (acc : Option (List Char)) (c : Char)
    (rest : List Char) (h1 : c ≠ qD) (h2 : c ≠ bsl) :
    shlexAux .inD acc (c :: rest)
      = shlexAux .inD (some (acc.getD [] ++ [c])) rest := by
  rw [shlexAux.eq_def]
  simp [h1, h2]

theorem shlex_step_normal_char (acc : Option (List Char)) (c : Char)
    (rest : List Char) (h1 : shlexWs c = false) (h2 : c ≠ qS) (h3 : c ≠ qD)
    (h4 : c ≠ bsl) :
    shlexAux .normal acc (c :: rest)
      = shlexAux .normal (some (acc.getD [] ++ [c])) rest := by
  rw [shlexAux.eq_def]
  simp [h1, h2, h3, h4]

theorem shlex_step_normal_qD (acc : Option (List Char)) (rest : List Char) :
    shlexAux .normal acc (qD :: rest)
      = shlexAux .inD (some (acc.getD [])) rest := by
  rw [shlexAux.eq_def]
  simp [(by decide : shlexWs qD = false), (by decide : qD = qS ↔ False)]

theorem shlex_step_normal_ws (t : List Char) (c : Char) (rest : List Char)
    (h : shlexWs c = true) :
    shlexAux .normal (some t) (c :: rest)
      = (shlexAux .normal none rest).map (fun ts => String.mk t :: ts) := by
  rw [shlexAux.eq_def]
  simp [h]

theorem shlex_normal_some_nil (t : List Char) :
    shlexAux .normal (some t) [] = some [String.mk t] := by
  rw [shlexAux.eq_def]

theorem shlex_inD_run (w : List Char) (hw : ∀ c ∈ w, c ≠ qD ∧ c ≠ bsl)
    (acc rest : List Char) :
    shlexAux .inD (some acc) (w ++ qD :: rest)
      = shlexAux .normal (some (acc ++ w)) rest := by
  induction w generalizing acc with
  | nil =>
    rw [List.nil_append, shlex_step_inD_qD]
    simp
  | cons c w' ih =>
    have hc := hw c (by simp)
    rw [List.cons_append, shlex_step_inD_char _ c _ hc.1 hc.2]
    rw [show (some acc).getD [] ++ [c] = acc ++ [c] from rfl]
    rw [ih (fun c2 h2 => hw c2 (by simp [h2])) (acc ++ [c])]
    simp

theorem shlex_token_run (kl vl : List Char)
    (hk : ∀ c ∈ kl, c ≠ qD ∧ c ≠ bsl) (hv : ∀ c ∈ vl, c ≠ qD ∧ c ≠ bsl)
    (rest : List Char) :
    shlexAux .normal none (qD :: kl ++ qD :: '=' :: qD :: vl ++ qD :: rest)
      = shlexAux .normal (some (kl ++ '=' :: vl)) rest := by
  simp only [List.cons_append, List.append_assoc]
  rw [shlex_step_normal_qD]
  rw [show (none : Option (List Char)).getD [] = ([] : List Char) from rfl]
  rw [shlex_inD_run kl hk [] ('=' :: qD :: (vl ++ qD :: rest))]
  rw [shlex_step_normal_char _ '=' _ (by decide) (by decide) (by decide) (by decide)]
  rw [show (some ([] ++ kl)).getD [] ++ ['='] = kl ++ ['='] from by simp]
  rw [shlex_step_normal_qD]
  rw [show (some (kl ++ ['='])).getD [] = kl ++ ['='] from rfl]
  rw [shlex_inD_run vl hv (kl ++ ['=']) rest]
  simp

theorem stringify_single_toList (k v : String) :
    (stringify_parameter_overrides [(k, v)]).toList
      = qD :: k.toList ++ qD :: '=' :: qD :: v.toList ++ [qD] := rfl

theorem stringify_cons2_toList (k v : String) (q : String × String)
    (m : List (String × String)) :
    (stringify_parameter_overrides ((k, v) :: q :: m)).toList
      = qD :: k.toList ++ qD :: '=' :: qD :: v.toList ++ qD :: ' ' ::
          (stringify_parameter_overrides (q :: m)).toList := by
  show (quoteKV k v ++ " " ++ joinSep " " ((q :: m).map (fun p => quoteKV p.1 p.2))).toList = _
  rw [string_toList_append, string_toList_append]
  show (qD :: k.toList ++ qD :: '=' :: qD :: v.toList ++ [qD]) ++ [' '] ++ _ = _
  simp
  rfl

theorem shlexSplit_stringify (m : List (String × String))
    (h : ∀ p ∈ m, (∀ c ∈ p.1.toList, c ≠ qD ∧ c ≠ bsl)
        ∧ (∀ c ∈ p.2.toList, c ≠ qD ∧ c ≠ bsl)) :
    shlexSplit (stringify_parameter_overrides m)
      = some (m.map (fun p => String.mk (p.1.toList ++ '=' :: p.2.toList))) := by
  induction m with
  | nil => rfl
  | cons p m' ih =>
    obtain ⟨k, v⟩ := p
    have hp := h (k, v) (by simp)
    cases m' with
    | nil =>
      show shlexAux .normal none (stringify_parameter_overrides [(k, v)]).toList = _
      rw [stringify_single_toList]
      rw [show qD :: k.toList ++ qD :: '=' :: qD :: v.toList ++ [qD]
          = qD :: k.toList ++ qD :: '=' :: qD :: v.toList ++ qD :: ([] : List Char) from by simp]
      rw [shlex_token_run k.toList v.toList hp.1 hp.2 []]
      rw [shlex_normal_some_nil]
      rfl
    | cons q m'' =>
      show shlexAux .normal none (stringify_parameter_overrides ((k, v) :: q :: m'')).toList = _
      rw [stringify_cons2_toList]
      rw [show qD :: k.toList ++ qD :: '=' :: qD :: v.toList ++ qD :: ' ' ::
            (stringify_parameter_overrides (q :: m'')).toList
          = qD :: k.toList ++ qD :: '=' :: qD :: v.toList ++ qD ::
            (' ' :: (stringify_parameter_overrides (q :: m'')).toList) from by simp]
      rw [shlex_token_run k.toList v.toList hp.1 hp.2
        (' ' :: (stringify_parameter_overrides (q :: m'')).toList)]
      rw [shlex_step_normal_ws _ ' ' _ (by decide)]
      rw [show shlexAux .normal none (stringify_parameter_overrides (q :: m'')).toList
          = shlexSplit (stringify_parameter_overrides (q :: m'')) from rfl]
      rw [ih (fun p2 h2 => h p2 (by simp [h2]))]
      rfl

theorem splitFirstEqChars_append (kl vl : List Char) (hk : '=' ∉ kl) :
    splitFirstEqChars (kl ++ '=' :: vl) = (kl, vl) := by
  induction kl with
  | nil => simp [splitFirstEqChars]
  | cons c k' ih =>
    have hc : c ≠ '=' := fun he => hk (by simp [he])
    rw [List.cons_append]
    rw [show splitFirstEqChars (c :: (k' ++ '=' :: vl))
        = (c :: (splitFirstEqChars (k' ++ '=' :: vl)).1,
           (splitFirstEqChars (k' ++ '=' :: vl)).2) from by
      simp [splitFirstEqChars, hc]]
    rw [ih (fun hm => hk (by simp [hm]))]

theorem cleanKey_parts (k : String) (h : cleanOverrideKey k = true) :
    (∀ c ∈ k.toList, c ≠ qD ∧ c ≠ bsl ∧ c ≠ '=') ∧ pyStrip k = k := by
  rw [cleanOverrideKey, Bool.and_eq_true] at h
  constructor
  · intro c hc
    have h3 := List.all_eq_true.1 h.1 c hc
    simp at h3
    exact ⟨h3.1.1, h3.1.2, h3.2⟩
  · exact of_decide_eq_true h.2

theorem cleanValue_parts (v : String) (h : cleanOverrideValue v = true) :
    (∀ c ∈ v.toList, c ≠ qD ∧ c ≠ bsl) ∧ pyStrip v = v := by
  rw [cleanOverrideValue, Bool.and_eq_true] at h
  constructor
  · intro c hc
    have := List.all_eq_true.1 h.1 c hc
    simpa using this
  · exact of_decide_eq_true h.2

theorem parse_stringify_fold (m : List (String × String))
    (hcl : ∀ p ∈ m, cleanOverrideKey p.1 = true ∧ cleanOverrideValue p.2 = true)
    (acc : List (String × String)) :
    (m.map (fun p => String.mk (p.1.toList ++ '=' :: p.2.toList))).foldl
      (fun parameters part =>
        if containsEq part then
          dictInsert parameters (pyStrip (splitFirstEq part).1)
            (pyStrip (splitFirstEq part).2)
        else parameters) acc
      = m.foldl (fun ps p => dictInsert ps p.1 p.2) acc := by
  induction m generalizing acc with
  | nil => rfl
  | cons p m' ih =>
    obtain ⟨k, v⟩ := p
    have hck := cleanKey_parts k (hcl (k, v) (by simp)).1
    have hcv := cleanValue_parts v (hcl (k, v) (by simp)).2
    have hknoeq : '=' ∉ k.toList := fun hm => (hck.1 '=' hm).2.2 rfl
    have hce : containsEq (String.mk (k.toList ++ '=' :: v.toList)) = true := by
      rw [show containsEq (String.mk (k.toList ++ '=' :: v.toList))
          = (k.toList ++ '=' :: v.toList).contains '=' from rfl]
      exact List.elem_iff.2 (by simp)
    have hsplit : splitFirstEq (String.mk (k.toList ++ '=' :: v.toList)) = (k, v) := by
      rw [show splitFirstEq (String.mk (k.toList ++ '=' :: v.toList))
          = (String.mk (splitFirstEqChars (k.toList ++ '=' :: v.toList)).1,
             String.mk (splitFirstEqChars (k.toList ++ '=' :: v.toList)).2) from rfl]
      rw [splitFirstEqChars_append k.toList v.toList hknoeq]
      rw [show (k.toList, v.toList).1 = k.toList from rfl,
        show (k.toList, v.toList).2 = v.toList from rfl,
        string_mk_toList, string_mk_toList]
    simp only [List.map_cons, List.foldl_cons]
    rw [if_pos hce, hsplit]
    rw [show (k, v).1 = k from rfl, show (k, v).2 = v from rfl, hck.2, hcv.2]
    exact ih (fun q hq => hcl q (by simp [hq])) (dictInsert acc k v)

theorem stringify_cons_ne_empty (p : String × String) (m : List (String × String)) :
    stringify_parameter_overrides (p :: m) ≠ "" := by
  intro h
  have h2 : (stringify_parameter_overrides (p :: m)).toList = [] := by
    rw [h]
    rfl
  obtain ⟨k, v⟩ := p
  cases m with
  | nil =>
    rw [stringify_single_toList] at h2
    simp at h2
  | cons q m' =>
    rw [stringify_cons2_toList] at h2
    simp at h2

/-- The parameter-override round trip: for maps whose keys and values are
    clean (no quote, backslash, or key-'='; no leading/trailing whitespace)
    and whose keys are unique, parsing the serialized form reproduces the
    map exactly. -/
theorem parse_stringify_roundtrip (m : List (String × String))
    (hnd : (keysOf m).Nodup)
    (hcl : ∀ p ∈ m, cleanOverrideKey p.1 = true ∧ cleanOverrideValue p.2 = true) :
    parse_parameter_overrides (stringify_parameter_overrides m) = m := by
  cases m with
  | nil => rfl
  | cons p m' =>
    unfold parse_parameter_overrides
    rw [if_neg (stringify_cons_ne_empty p m')]
    rw [shlexSplit_stringify (p :: m') (by
      intro q hq
      have hq2 := hcl q hq
      exact ⟨(fun c hc => ⟨((cleanKey_parts q.1 hq2.1).1 c hc).1,
          ((cleanKey_parts q.1 hq2.1).1 c hc).2.1⟩),
        (cleanValue_parts q.2 hq2.2).1⟩)]
    show ((p :: m').map (fun q => String.mk (q.1.toList ++ '=' :: q.2.toList))).foldl
      (fun parameters part =>
        if containsEq part then
          dictInsert parameters (pyStrip (splitFirstEq part).1)
            (pyStrip (splitFirstEq part).2)
        else parameters) [] = p :: m'
    rw [parse_stringify_fold (p :: m') hcl []]
    show dictOfA (p :: m') = p :: m'
    exact dictOfA_eq_self (p :: m') hnd

/- =====================================================================
   Lemmas: stage ordering
   ===================================================================== -/

theorem rankOfTuple_stageSortKey (s : String) :
    rankOfTuple (stageSortKey s) = stageRank s := by
  unfold stageSortKey stageRank
  by_cases h1 : stageFirstChar s = 'd' <;>
    by_cases h2 : stageFirstChar s = 't' <;>
    by_cases h3 : stageFirstChar s = 'b' <;>
    by_cases h4 : stageFirstChar s = 's' <;>
    by_cases h5 : stageFirstChar s = 'p' <;>
    simp [h1, h2, h3, h4, h5, rankOfTuple]

theorem stageSortKey_mem (s : String) :
    stageSortKey s ∈ [((false : Bool), (true : Bool), (true : Bool), (true : Bool), (true : Bool)),
      (true, false, true, true, true), (true, true, false, true, true),
      (true, true, true, false, true), (true, true, true, true, false),
      (true, true, true, true, true)] := by
  unfold stageSortKey
  by_cases h1 : stageFirstChar s = 'd' <;>
    by_cases h2 : stageFirstChar s = 't' <;>
    by_cases h3 : stageFirstChar s = 'b' <;>
    by_cases h4 : stageFirstChar s = 's' <;>
    by_cases h5 : stageFirstChar s = 'p' <;>
    simp_all

theorem stageLe_iff_rank (a b : String) :
    stageLe a b ↔ stageRank a ≤ stageRank b := by
  have ha := stageSortKey_mem a
  have hb := stageSortKey_mem b
  rw [stageLe, ← rankOfTuple_stageSortKey a, ← rankOfTuple_stageSortKey b]
  exact (by decide : ∀ x ∈ [((false : Bool), (true : Bool), (true : Bool), (true : Bool), (true : Bool)),
      (true, false, true, true, true), (true, true, false, true, true),
      (true, true, true, false, true), (true, true, true, true, false),
      (true, true, true, true, true)], ∀ y ∈ [((false : Bool), (true : Bool), (true : Bool), (true : Bool), (true : Bool)),
      (true, false, true, true, true), (true, true, false, true, true),
      (true, true, true, false, true), (true, true, true, true, false),
      (true, true, true, true, true)],
      (tupleLeB x y = true ↔ rankOfTuple x ≤ rankOfTuple y)) _ ha _ hb

theorem any_lookup_ne_iff [DecidableEq α] (l r : List (String × α)) :
    ((unionKeys (keysOf l) (keysOf r)).any
        (fun k => decide (lookupA l k ≠ lookupA r k)) = true)
      ↔ ∃ k, lookupA l k ≠ lookupA r k := by
  rw [List.any_eq_true]
  constructor
  · rintro ⟨k, _, hk⟩
    exact ⟨k, by simpa using hk⟩
  · rintro ⟨k, hk⟩
    refine ⟨k, ?_, by simpa using hk⟩
    rw [mem_unionKeys]
    by_cases h1 : k ∈ keysOf l
    · exact Or.inl h1
    · by_cases h2 : k ∈ keysOf r
      · exact Or.inr h2
      · exact absurd (by rw [lookupA_eq_none l k h1, lookupA_eq_none r k h2]) hk

theorem copyNonEssential_keeps (la sa : List (String × PyVal)) :
    (∀ v, lookupA la "confirm_changeset" = some v →
      lookupA (copyNonEssential la sa) "confirm_changeset" = some v) ∧
    (∀ v, lookupA la "s3_bucket" = some v →
      lookupA (copyNonEssential la sa) "s3_bucket" = some v) := by
  constructor
  · intro v hv
    unfold copyNonEssential
    rw [hv]
    cases hs3 : lookupA la "s3_bucket" with
    | none =>
      exact lookupA_dictInsert_self sa "confirm_changeset" v
    | some v2 =>
      rw [lookupA_dictInsert_ne _ "s3_bucket" "confirm_changeset" v2 (by decide)]
      exact lookupA_dictInsert_self sa "confirm_changeset" v
  · intro v hv
    unfold copyNonEssential
    rw [hv]
    cases hcc : lookupA la "confirm_changeset" with
    | none => exact lookupA_dictInsert_self sa "s3_bucket" v
    | some v2 => exact lookupA_dictInsert_self _ "s3_bucket" v

/- =====================================================================
   Claim theorems
   ===================================================================== -/

/-- C1: merge_tags keeps the base value for protected keys (those starting
    with "atlantis:" or "Atlantis"), lets the overlay overwrite unprotected
    base keys, adds keys absent from the base regardless of namespace, and
    on the spec's concrete example yields exactly the stated tag set. -/
theorem c1_merge_tags_precedence (base overlay : List (String × String))
    (hb : (keysOf base).Nodup) (ho : (keysOf overlay).Nodup)
    (k v w : String) :
    (((k, v) ∈ base ∧ isProtectedTagKey k = true) →
      lookupA (merge_tags base overlay) k = some v) ∧
    (((k, v) ∈ base ∧ isProtectedTagKey k = false ∧ (k, w) ∈ overlay) →
      lookupA (merge_tags base overlay) k = some w) ∧
    ((k ∉ keysOf base ∧ (k, w) ∈ overlay) →
      lookupA (merge_tags base overlay) k = some w) ∧
    merge_tags [("Atlantis:App", "v1"), ("Owner", "alice")]
        [("Atlantis:App", "v2"), ("Owner", "bob"), ("Team", "infra")]
      = [("Atlantis:App", "v1"), ("Owner", "bob"), ("Team", "infra")] := by
  refine ⟨?_, ?_, ?_, by decide⟩
  · rintro ⟨hm, hp⟩
    show lookupA (overlay.foldl mergeTagStep (dictOfA base)) k = some v
    rw [dictOfA_eq_self base hb]
    rw [lookupA_mergeFold_protected overlay base k hp
      ((containsK_iff base k).2 (List.mem_map_of_mem Prod.fst hm))]
    exact lookupA_of_mem_nodup base k v hb hm
  · rintro ⟨hm, hp, hw⟩
    show lookupA (overlay.foldl mergeTagStep (dictOfA base)) k = some w
    rw [dictOfA_eq_self base hb]
    exact lookupA_mergeFold_unprotected_mem overlay base k w hp hw ho
  · rintro ⟨hm, hw⟩
    show lookupA (overlay.foldl mergeTagStep (dictOfA base)) k = some w
    rw [dictOfA_eq_self base hb]
    exact lookupA_mergeFold_absent_mem overlay base k w
      ((containsK_false_iff base k).2 hm) hw ho

theorem c1_merge_tags_precedence_witness :
    lookupA (merge_tags [("Atlantis:App", "v1"), ("Owner", "alice")]
        [("Atlantis:App", "v2"), ("Owner", "bob"), ("Team", "infra")]) "Owner"
      = some "bob" :=
  (c1_merge_tags_precedence
      [("Atlantis:App", "v1"), ("Owner", "alice")]
      [("Atlantis:App", "v2"), ("Owner", "bob"), ("Team", "infra")]
      (by decide) (by decide) "Owner" "alice" "bob").2.1
    ⟨by decide, by decide, by decide⟩

/-- C2 (code bug): validate_parameter applies `re.match`, which anchors only
    at the start of the value.  Against AllowedPattern "a" the value "ab" is
    accepted (the pattern matches the prefix "a"), although "ab" does not
    fully match the pattern — CloudFormation's AllowedPattern, which the
    function's docstring says it validates against, requires the entire
    value to match. -/
theorem c2_pattern_prefix_match_code_bug :
    validate_parameter "ab"
        ⟨none, none, [], some ⟨"a", Regex.char 'a'⟩, none, none, none, none⟩
      = ⟨"Valid", true⟩
    ∧ reMatch (Regex.char 'a') "ab" = true
    ∧ reFullmatch (Regex.char 'a') "ab" = false :=
  ⟨by decide, by decide, by decide⟩

/-- C3: validate_parameter applies its rules in a fixed order with
    first-failure-wins early exit: an empty value with a Default is accepted
    before any other rule fires; a value outside a nonempty AllowedValues
    list is rejected with the allowed-values reason regardless of any
    pattern; a pattern rejection wins over all type-specific checks; and on
    the spec's example ("q" against allowedValues ["x","y"] and pattern
    "^z.*") the reason references the allowed values, not the pattern. -/
theorem c3_validator_ordering :
    (∀ (param_def : ParamDef), param_def.Default.isSome = true →
      validate_parameter "" param_def = ⟨"Valid", true⟩) ∧
    (∀ (value : String) (param_def : ParamDef),
      (value = "" && param_def.Default.isSome) = false →
      param_def.AllowedValues ≠ [] →
      param_def.AllowedValues.contains value = false →
      validate_parameter value param_def
        = ⟨allowedValuesReason param_def.AllowedValues, false⟩) ∧
    (∀ (value : String) (param_def : ParamDef),
      (value = "" && param_def.Default.isSome) = false →
      (param_def.AllowedValues = [] ∨ param_def.AllowedValues.contains value = true) →
      patternRejects param_def.AllowedPattern value = true →
      validate_parameter value param_def
        = ⟨"Value must match pattern: " ++ patternRaw param_def.AllowedPattern, false⟩) ∧
    validate_parameter "q"
        ⟨none, none, ["x", "y"],
          some ⟨"^z.*", Regex.cat (Regex.char 'z') (Regex.star Regex.any)⟩,
          none, none, none, none⟩
      = ⟨"Value must be one of: x, y", false⟩ := by
  refine ⟨?_, ?_, ?_, by decide⟩
  · intro d hd
    simp [validate_parameter, hd]
  · intro value d h0 h1 h2
    rcases hAV : d.AllowedValues with _ | ⟨a, as⟩
    · exact absurd hAV (hAV ▸ h1)
    · rw [hAV] at h2
      have h2' : value ∉ a :: as := by
        intro hm
        rw [show ((a :: as).contains value) = ((a :: as).elem value) from rfl,
          List.elem_iff.2 hm] at h2
        cases h2
      simp [validate_parameter, h0, hAV, h2']
  · intro value d h0 h1 h2
    rcases h1 with h1 | h1
    · simp [validate_parameter, h0, h1, h2]
    · have h1' : value ∈ d.AllowedValues := List.elem_iff.1 h1
      simp [validate_parameter, h0, h1', h2]

theorem c3_validator_ordering_witness :
    validate_parameter "q"
        ⟨none, none, ["x", "y"],
          some ⟨"^z.*", Regex.cat (Regex.char 'z') (Regex.star Regex.any)⟩,
          none, none, none, none⟩
      = ⟨allowedValuesReason ["x", "y"], false⟩ :=
  c3_validator_ordering.2.1 "q"
    ⟨none, none, ["x", "y"],
      some ⟨"^z.*", Regex.cat (Regex.char 'z') (Regex.star Regex.any)⟩,
      none, none, none, none⟩
    (by decide) (by decide) (by decide)

/-- C4 (amended): compare_configurations returns true iff, after copying the
    non-essential keys confirm_changeset and s3_bucket from the local
    atlantis parameters into the stack's, some key in one of the three
    domains (parameter overrides, atlantis deploy parameters, tags) has
    unequal raw values — Python `!=` on the values with an absent key
    compared as absent, not string equality with a "None" sentinel; the
    copied non-essential keys themselves never differ. -/
theorem c4_compare_differences (stage_id : String)
    (local_config stack_config : SamConfig) :
    (compare_configurations stage_id local_config stack_config = true ↔
      ((∃ k, lookupA (getStageParams local_config stage_id).parameter_overrides k
          ≠ lookupA (getStageParams stack_config stage_id).parameter_overrides k) ∨
       (∃ k, lookupA local_config.atlantis_params k
          ≠ lookupA (copyNonEssential local_config.atlantis_params
              stack_config.atlantis_params) k) ∨
       (∃ k, lookupA (dictOfA (getStageParams local_config stage_id).tags) k
          ≠ lookupA (dictOfA (getStageParams stack_config stage_id).tags) k))) ∧
    (∀ v, lookupA local_config.atlantis_params "confirm_changeset" = some v →
      lookupA (copyNonEssential local_config.atlantis_params
          stack_config.atlantis_params) "confirm_changeset" = some v) ∧
    (∀ v, lookupA local_config.atlantis_params "s3_bucket" = some v →
      lookupA (copyNonEssential local_config.atlantis_params
          stack_config.atlantis_params) "s3_bucket" = some v) := by
  refine ⟨?_, (copyNonEssential_keeps _ _).1, (copyNonEssential_keeps _ _).2⟩
  show (domainDiff _ _ (domainDiff _ _ (domainDiff _ _ false)) = true) ↔ _
  rw [domainDiff_eq, domainDiff_eq, domainDiff_eq]
  simp only [Bool.false_or, Bool.or_eq_true, any_lookup_ne_iff, or_assoc]

/-- C4 counterexample: with a local tag whose value is the string "None" and
    no such tag on the stack, the differ returns true although under the
    claim's "string equality with absent normalized to None" comparison no
    key differs. -/
theorem c4_counterexample :
    compare_configurations "test"
        ⟨[], [("test", ⟨[], [("X", "None")]⟩)]⟩ ⟨[], [("test", ⟨[], []⟩)]⟩ = true
    ∧ specHasDifferences "test"
        ⟨[], [("test", ⟨[], [("X", "None")]⟩)]⟩ ⟨[], [("test", ⟨[], []⟩)]⟩ = false :=
  ⟨by decide, by decide⟩

/-- C5 counterexample: with A = {} and B a fragment whose "tags" array holds
    two entries with the same tag key, resolve([A,B]) keeps both entries but
    resolve([A,B,B]) collapses them through merge_tags, so the results
    differ. -/
theorem c5_counterexample :
    resolve [[], [("tags", JVal.list [("a", "1"), ("a", "2")])]]
      ≠ resolve [[], [("tags", JVal.list [("a", "1"), ("a", "2")])],
          [("tags", JVal.list [("a", "1"), ("a", "2")])]] := by
  intro h
  have h1 : lookupA (resolve [[], [("tags", JVal.list [("a", "1"), ("a", "2")])]]) "tags"
      = some (JVal.list [("a", "1"), ("a", "2")]) := rfl
  rw [h] at h1
  have h2 : lookupA (resolve [[], [("tags", JVal.list [("a", "1"), ("a", "2")])],
        [("tags", JVal.list [("a", "1"), ("a", "2")])]]) "tags"
      = some (JVal.list [("a", "2")]) := rfl
  rw [h2] at h1
  injection h1 with h3
  injection h3 with h4
  exact absurd h4 (by decide)

/-- C5 (amended): resolving [A, B] equals resolving [A, B, B] for
    well-formed fragments: objects with unique keys (automatic for parsed
    JSON) whose tag arrays have pairwise-distinct tag keys — the condition
    the counterexample shows is needed. -/
theorem c5_resolve_idempotent (A B : List (String × JVal))
    (hA : wfFrag A = true) (hB : wfFrag B = true) :
    resolve [A, B] = resolve [A, B, B] := by
  rw [wfFrag, Bool.and_eq_true] at hA hB
  have hA' : (keysOf A).Nodup := (nodupB_iff _).1 hA.1
  have hB' : (keysOf B).Nodup := (nodupB_iff _).1 hB.1
  have h0 := deep_update_wf [] A (by simp [keysOf]) rfl hA.2
  show deep_update (deep_update [] A) B
      = deep_update (deep_update (deep_update [] A) B) B
  exact (deep_update_absorb (deep_update [] A) B h0.1 h0.2 hB' hB.2).symm

theorem c5_resolve_idempotent_witness :
    resolve [[("x", JVal.str "1")], [("tags", JVal.list [("a", "1")])]]
      = resolve [[("x", JVal.str "1")], [("tags", JVal.list [("a", "1")])],
          [("tags", JVal.list [("a", "1")])]] :=
  c5_resolve_idempotent [("x", JVal.str "1")] [("tags", JVal.list [("a", "1")])]
    (by decide) (by decide)

/-- C6 counterexample: deep_update writes into `original` in place and
    returns that same object, so after `deep_update(original, update)` the
    caller's `original` holds the merged result; starting from an empty
    dict and a one-key update, the post-call value of `original` is not its
    initial value. -/
theorem c6_counterexample :
    deep_update [] [("a", JVal.str "1")] ≠ [] :=
  fun h => List.cons_ne_nil _ _ h

/-- C6 (amended): merge_tags builds a fresh dict from its first argument
    and never writes to it, but deep_update mutates its first argument:
    whenever the update holds a key absent from `original`, the value
    `original` holds after the call (the function's return value, which the
    source obtains by assigning into `original`) differs from its initial
    value. -/
theorem c6_deep_update_mutates (original update : List (String × JVal))
    (k : String) (v : JVal) (hmem : (k, v) ∈ update)
    (habsent : k ∉ keysOf original) :
    deep_update original update ≠ original := by
  intro heq
  have h1 : containsK (deep_update original update) k = true :=
    containsK_deep_update_of_mem update original k v hmem
  rw [heq] at h1
  exact habsent ((containsK_iff original k).1 h1)

theorem c6_deep_update_mutates_witness :
    deep_update [] [("b", JVal.str "2")] ≠ [] :=
  c6_deep_update_mutates [] [("b", JVal.str "2")] "b" (JVal.str "2")
    (by simp) (by simp [keysOf])

/-- C7 counterexample: a value with a leading space does not round-trip:
    parse strips the parsed value, so parsing the serialized form of
    {"A": " 1"} yields {"A": "1"}. -/
theorem c7_counterexample :
    parse_parameter_overrides (stringify_parameter_overrides [("A", " 1")])
      ≠ [("A", " 1")] := by
  decide

/-- C7 (amended): serializing then parsing parameter overrides reproduces
    the map exactly for maps with unique keys whose keys contain no double
    quote, backslash or '=', whose values contain no double quote or
    backslash, and whose keys and values carry no leading or trailing
    whitespace — in particular for {"A":"1","B":"two words"}, preserving the
    embedded space. -/
theorem c7_roundtrip (m : List (String × String))
    (hnd : (keysOf m).Nodup)
    (hcl : ∀ p ∈ m, cleanOverrideKey p.1 = true ∧ cleanOverrideValue p.2 = true) :
    parse_parameter_overrides (stringify_parameter_overrides m) = m :=
  parse_stringify_roundtrip m hnd hcl

theorem c7_roundtrip_witness :
    parse_parameter_overrides
        (stringify_parameter_overrides [("A", "1"), ("B", "two words")])
      = [("A", "1"), ("B", "two words")] :=
  c7_roundtrip [("A", "1"), ("B", "two words")] (by decide) (by decide)

/-- C8: save_config's stage ordering is a permutation of the deployment
    stages sorted by the priority of the first character — d, then t, then
    b, then s, then p, then everything else — and on the spec's example the
    stages {"prod","test1","dev2","build","staging"} come out in the order
    dev2, test1, build, staging, prod.  (The source indexes `x[0]`, so the
    model is quoted for nonempty stage identifiers.) -/
theorem c8_stage_ordering (stages : List String) (_h : ∀ s ∈ stages, s ≠ "") :
    (sortedStages stages).Perm stages ∧
    (sortedStages stages).Sorted (fun a b => stageRank a ≤ stageRank b) ∧
    sortedStages ["prod", "test1", "dev2", "build", "staging"]
      = ["dev2", "test1", "build", "staging", "prod"] := by
  refine ⟨List.perm_insertionSort stageLe stages, ?_, by decide⟩
  have hs := List.sorted_insertionSort stageLe stages
  exact hs.imp (fun h2 => (stageLe_iff_rank _ _).1 h2)

theorem c8_stage_ordering_witness :
    sortedStages ["prod", "test1", "dev2", "build", "staging"]
      = ["dev2", "test1", "build", "staging", "prod"] :=
  (c8_stage_ordering ["prod", "test1", "dev2", "build", "staging"]
    (by decide)).2.2

/-- C9 counterexample: parse_tags does not skip a malformed token — it
    raises a ValueError (modelled by `Except.error`), so a tag string with
    one token lacking '=' aborts the whole parse instead of being
    skipped. -/
theorem c9_counterexample :
    parse_tags "owner" = Except.error
      "Error parsing tags: Invalid tag format. Each tag must be in 'key=value' format: owner" :=
  rfl

/-- C9 (amended): a defaults layer that fails to parse is logged and
    skipped, leaving the merge of the other layers unchanged, and
    parse_parameter_overrides never raises (a token without '=' is skipped
    individually); but a malformed token makes parse_tags raise a
    ValueError, aborting the tag parse — and with it read_samconfig's
    processing — rather than skipping only the offending token. -/
theorem c9_malformed_input (pre post : List (Except String (List (String × JVal))))
    (e : String) :
    load_defaults (pre ++ Except.error e :: post) = load_defaults (pre ++ post)
    ∧ parse_parameter_overrides "A=1 bad B=2" = [("A", "1"), ("B", "2")]
    ∧ parse_tags "Owner=alice bad Stage=test" = Except.error
        "Error parsing tags: Invalid tag format. Each tag must be in 'key=value' format: bad" := by
  refine ⟨?_, by decide, rfl⟩
  unfold load_defaults
  rw [List.foldl_append, List.foldl_append, List.foldl_cons]

/-- C10: generate_stack_name produces
    "{prefix}-{project_id}-{stage_id}-{infra_type}" with empty arguments
    falling back to the instance attributes, the project_id segment omitted
    when empty, and the stage_id segment omitted when empty or "default". -/
theorem c10_generate_stack_name (self : ConfigManagerState)
    (pfx project_id stage_id : String) :
    generate_stack_name self pfx project_id stage_id
      = claimStackName self pfx project_id stage_id := by
  unfold generate_stack_name claimStackName
  split_ifs <;> simp_all [String.append_assoc] <;>
    split_ifs <;> simp_all [String.append_assoc]

theorem c4_compare_differences_witness :
    compare_configurations "test"
        ⟨[("s3_bucket", PyVal.pstr "bucket-a")],
          [("test", ⟨[("Region", "us-east-1")], []⟩)]⟩
        ⟨[("s3_bucket", PyVal.pstr "bucket-b")],
          [("test", ⟨[("Region", "us-west-2")], []⟩)]⟩ = true :=
  ((c4_compare_differences "test"
      ⟨[("s3_bucket", PyVal.pstr "bucket-a")],
        [("test", ⟨[("Region", "us-east-1")], []⟩)]⟩
      ⟨[("s3_bucket", PyVal.pstr "bucket-b")],
        [("test", ⟨[("Region", "us-west-2")], []⟩)]⟩).1).2
    (Or.inl ⟨"Region", by decide⟩)
